import Mathlib

/-!
Verification development for the vscode-locore review-store core.

The TypeScript source is shallowly embedded:
* `review-store.ts` (`readIndexJson`, `readAllJsonl`) is modelled over a small
  JSON value type, with file contents given as the outcome of reading/parsing.
* `review-service.ts` (`upsertReview`) and `comment-controller.ts`
  (`setThreadState`, `restoreExistingThreads`, `resolveThreadIdFromIndex`) are
  modelled as pure functions over an explicit store state
  (index document + append-only log), with clock, user name and freshly minted
  UUIDs passed in as parameters.
* JavaScript plain objects used as string-keyed dictionaries are modelled as
  association lists in insertion order (`Object.keys` enumerates string keys
  in insertion order); the `WeakMap` from live UI threads to thread ids is an
  association list keyed by a runtime object identity (`Nat`).
* `keyFromThread` and `parseStoredUri` (module `path-utils`, not present in
  the sources) are taken as parameters of the embedding; theorems quantify
  over them.
-/

namespace LoCoRe

/-! ## JavaScript object / Map operations (association lists) -/

/-- `m[k]` on a JS object: `none` when the key is absent (`undefined`). -/
def jget {κ α : Type} [DecidableEq κ] (m : List (κ × α)) (k : κ) : Option α :=
  (m.find? (fun p => p.1 = k)).map (·.2)

/-- `m[k] = v` on a JS object: overwrite in place when the key exists
(keeping its position), otherwise append the new key at the end.  (JS object
keys are unique, so replacing the first occurrence is the JS behaviour.) -/
def jset {κ α : Type} [DecidableEq κ] (m : List (κ × α)) (k : κ) (v : α) :
    List (κ × α) :=
  match m with
  | [] => [(k, v)]
  | p :: rest => if p.1 = k then (k, v) :: rest else p :: jset rest k v

/-- `delete m[k]` on a JS object. -/
def jdel {κ α : Type} [DecidableEq κ] (m : List (κ × α)) (k : κ) :
    List (κ × α) :=
  m.filter (fun p => ¬ p.1 = k)

/-- JS `a || b` on `string | undefined` values: `undefined` and the empty
string are falsy. -/
def jsOrStr (a b : Option String) : Option String :=
  match a with
  | some s => if s = "" then b else some s
  | none => b

/-! ## Data model (`review-store.ts` interfaces, typed level) -/

/-- A zero-based line/character position (`vscode.Position`). -/
structure Pos where
  line : Nat
  character : Nat
deriving DecidableEq, Repr

/-- A range (`vscode.Range`); the source field `end` is a Lean keyword and is
called `stop` here. -/
structure Range where
  start : Pos
  stop : Pos
deriving DecidableEq, Repr

/-- Thread lifecycle state; the source literal `'open'` is `opened` here
(`open` is a Lean keyword). -/
inductive ThreadState where
  | opened
  | closed
deriving DecidableEq, Repr

/-- `IndexThreadEntry` of `review-store.ts`.  The optional `summary` and
`anchors` fields are never read by the core and `anchors` is only ever written
as the constant `{}`; they are omitted. -/
structure ThreadEntry where
  threadId : String
  uri : String
  range : Range
  state : ThreadState
  createdAt : String
  updatedAt : String
  commentCount : Nat
  firstSeq : Option Nat := none
  lastSeq : Option Nat := none
deriving DecidableEq, Repr

/-- `ReviewLogRow` of `review-store.ts`: one line of `review.jsonl`. -/
structure LogRow where
  threadId : String
  commentId : String
  seq : Nat
  createdAt : String
  author : String
  body : String
deriving DecidableEq, Repr

/-- `IndexJsonSchemaV1` of `review-store.ts` (the constant `version: 1` tag
is dropped at the typed level). -/
structure IndexDoc where
  lastSeq : Nat
  threads : List (String × ThreadEntry)
  byUri : List (String × List String)
deriving DecidableEq, Repr

/-- The two persistent files: `index.json` plus the `review.jsonl` rows. -/
structure Store where
  index : IndexDoc
  log : List LogRow
deriving DecidableEq, Repr

/-- The default document `{version:1, lastSeq:0, threads:{}, byUri:{}}`. -/
def emptyIndex : IndexDoc := { lastSeq := 0, threads := [], byUri := [] }

/-- Empty store: default index document and an empty log. -/
def emptyStore : Store := { index := emptyIndex, log := [] }

/-- The relevant parts of a live `vscode.CommentThread`: a runtime object
identity (for the `WeakMap`), `thread.uri.toString()`, and `thread.range`
(which may be `undefined`). -/
structure LiveThread where
  tid : Nat
  uri : String
  range : Option Range
deriving DecidableEq, Repr

/-- `thread.range ?? new vscode.Range(0, 0, 0, 0)`. -/
def effRange (t : LiveThread) : Range :=
  t.range.getD ⟨⟨0, 0⟩, ⟨0, 0⟩⟩

/-! ## Thread identity resolution (`comment-controller.ts`) -/

/-- The four-coordinate exact comparison performed by
`resolveThreadIdFromIndex`. -/
def rangesMatch (tr r : Range) : Bool :=
  tr.start.line == r.start.line && tr.start.character == r.start.character &&
  tr.stop.line == r.stop.line && tr.stop.character == r.stop.character

/-- The linear scan of candidate ids: entries missing from `threads` are
skipped (`if (!t) continue`), the first entry whose range matches exactly
wins. -/
def scanCandidates (threads : List (String × ThreadEntry)) (r : Range) :
    List String → Option String
  | [] => none
  | id :: rest =>
    match jget threads id with
    | none => scanCandidates threads r rest
    | some t =>
      if rangesMatch t.range r then some id else scanCandidates threads r rest

/-- The candidate list
`(relKey && indexData.byUri[relKey]) || indexData.byUri[absKey] || []`:
when a workspace root is available the relative key is consulted first, and
its bucket is used whenever present (even when empty — a JS array is truthy);
otherwise the absolute-URI bucket, defaulting to the empty list. -/
def candidateIds (keyFn : String → String → String) (root : Option String)
    (indexData : IndexDoc) (thread : LiveThread) : List String :=
  let absKey := thread.uri
  let relAttempt : Option (List String) :=
    match root with
    | some ws =>
      let rk := keyFn thread.uri ws
      if rk = "" then none else jget indexData.byUri rk
    | none => none
  match relAttempt with
  | some l => l
  | none => (jget indexData.byUri absKey).getD []

/-- `resolveThreadIdFromIndex` of `comment-controller.ts`, parametrized by
`keyFromThread` (`keyFn`) and the optional workspace root. -/
def resolveThreadIdFromIndex (keyFn : String → String → String)
    (root : Option String) (indexData : IndexDoc) (thread : LiveThread) :
    Option String :=
  scanCandidates indexData.threads (effRange thread)
    (candidateIds keyFn root indexData thread)

/-! ## Reconciliation: `upsertReview` (`review-service.ts`) -/

/-- The fresh `ThreadEntry` created for a thread with no resolvable
identity (`state: 'open'`, `commentCount: 0`). -/
def mkNewEntry (threadId uriKey : String) (r : Range) (nowIso : String) :
    ThreadEntry :=
  { threadId := threadId, uri := uriKey, range := r,
    state := ThreadState.opened, createdAt := nowIso, updatedAt := nowIso,
    commentCount := 0, firstSeq := none, lastSeq := none }

/-- `if (!byUri[key]) byUri[key] = []; if (!byUri[key].includes(id)) push`. -/
def pushByUri (byUri : List (String × List String)) (key threadId : String) :
    List (String × List String) :=
  let m1 := if (jget byUri key).isNone then jset byUri key [] else byUri
  let cur := (jget m1 key).getD []
  if threadId ∈ cur then m1 else jset m1 key (cur ++ [threadId])

/-- JS truthiness normalisation of a resolved thread id
(`!threadId` treats the empty string like `undefined`). -/
def normId (o : Option String) : Option String :=
  match o with
  | none => none
  | some s => if s = "" then none else some s

/-- Result of `upsertReview`: the updated store, the updated
`threadIdMap`, the resolved/minted thread id and whether a new thread entry
was created. -/
structure UpsertResult where
  store : Store
  tmap : List (Nat × String)
  threadId : String
  isNewThread : Bool
deriving DecidableEq, Repr

/-- `upsertReview` of `review-service.ts`, for an open workspace (`root`).
`freshThreadId`/`freshCommentId` stand for the `generateUuid()` results,
`nowIso` for `new Date().toISOString()`, `author` for
`os.userInfo().username || 'unknown'`.  Returns `none` exactly where the
source would throw a `TypeError` (`indexData.threads[threadId]` undefined,
reachable only through a stale `threadIdMap` entry). -/
def upsertReview (keyFn : String → String → String) (root : String)
    (freshThreadId freshCommentId nowIso author : String)
    (tmap : List (Nat × String)) (st : Store) (thread : LiveThread)
    (body : String) : Option UpsertResult :=
  let uriStr := thread.uri
  let range := effRange thread
  let indexData := st.index
  let resolved := normId (jsOrStr (jget tmap thread.tid)
    (resolveThreadIdFromIndex keyFn (some root) indexData thread))
  let isNewThread := resolved.isNone
  let minted :=
    match resolved with
    | some tid0 => (tid0, tmap, indexData)
    | none =>
      let tid0 := freshThreadId
      let threads1 := jset indexData.threads tid0
        (mkNewEntry tid0 uriStr range nowIso)
      let byUri1 := pushByUri indexData.byUri uriStr tid0
      (tid0, jset tmap thread.tid tid0,
       { indexData with threads := threads1, byUri := byUri1 })
  let threadId := minted.1
  let tmap1 := minted.2.1
  let indexData1 := minted.2.2
  -- `(indexData.lastSeq || 0) + 1`; `lastSeq` is a `Nat`, so `|| 0` is the
  -- identity.
  let nextSeq := indexData1.lastSeq + 1
  let row : LogRow :=
    { threadId := threadId, commentId := freshCommentId, seq := nextSeq,
      createdAt := nowIso, author := author, body := body }
  let log1 := st.log ++ [row]
  match jget indexData1.threads threadId with
  | none => none
  | some t =>
    let t1 := { t with
      commentCount := t.commentCount + 1,
      updatedAt := nowIso,
      firstSeq := (match t.firstSeq with
                   | some f => some f
                   | none => some nextSeq),
      lastSeq := some nextSeq }
    let indexData2 := { indexData1 with
      threads := jset indexData1.threads threadId t1, lastSeq := nextSeq }
    some { store := { index := indexData2, log := log1 },
           tmap := tmap1, threadId := threadId, isNewThread := isNewThread }

/-! ## Thread state transition: `setThreadState` (`comment-controller.ts`) -/

/-- Result of `setThreadState`. -/
structure SetStateResult where
  store : Store
  tmap : List (Nat × String)
  threadId : String
deriving DecidableEq, Repr

/-- The legacy-key migration step of `setThreadState`:
`byUri[absKey] = byUri[absKey].filter(id => id !== threadId)`, deleting the
key when the bucket becomes empty (no-op when the key is absent). -/
def cleanupAbsKey (byUri : List (String × List String))
    (absKey threadId : String) : List (String × List String) :=
  match jget byUri absKey with
  | none => byUri
  | some l =>
    let l1 := l.filter (fun id => id ≠ threadId)
    if l1.length = 0 then jdel byUri absKey else jset byUri absKey l1

/-- `setThreadState` of `comment-controller.ts`.  `root` is
`path.dirname(codeReviewDir)`, which coincides with the workspace root the
resolver reads.  Minting a fresh entry stores the relative key
`keyFn uri root`; afterwards the entry's `uri` is migrated to the relative
key and the absolute-URI bucket of `byUri` is cleaned up.  No log row is
ever written.  Returns `none` exactly where the source would throw
(`indexData.threads[threadId]` undefined via a stale `threadIdMap`). -/
def setThreadState (keyFn : String → String → String) (root : String)
    (freshThreadId nowIso : String) (state : ThreadState)
    (tmap : List (Nat × String)) (st : Store) (thread : LiveThread) :
    Option SetStateResult :=
  let indexData := st.index
  let resolved := normId (jsOrStr (jget tmap thread.tid)
    (resolveThreadIdFromIndex keyFn (some root) indexData thread))
  let uriKey := keyFn thread.uri root
  let r := effRange thread
  let minted :=
    match resolved with
    | some tid0 => (tid0, tmap, indexData)
    | none =>
      let tid0 := freshThreadId
      let threads1 := jset indexData.threads tid0
        (mkNewEntry tid0 uriKey r nowIso)
      let byUri1 := pushByUri indexData.byUri uriKey tid0
      (tid0, jset tmap thread.tid tid0,
       { indexData with threads := threads1, byUri := byUri1 })
  let threadId := minted.1
  let tmap1 := minted.2.1
  let indexData1 := minted.2.2
  match jget indexData1.threads threadId with
  | none => none
  | some t =>
    let t1 := { t with state := state, updatedAt := nowIso, uri := uriKey }
    let threads2 := jset indexData1.threads threadId t1
    let byUri2 := cleanupAbsKey indexData1.byUri thread.uri threadId
    let byUri3 := pushByUri byUri2 uriKey threadId
    let indexData2 := { indexData1 with threads := threads2, byUri := byUri3 }
    some { store := { index := indexData2, log := st.log },
           tmap := tmap1, threadId := threadId }

/-! ## Restoration: `restoreExistingThreads` (`comment-controller.ts`) -/

/-- The projection of a log row shown in the UI
(`{author: {name}, body, timestamp: new Date(createdAt)}`; the constant
`mode`/`contextValue` fields are dropped). -/
structure UIComment where
  author : String
  body : String
  timestamp : String
deriving DecidableEq, Repr

/-- Build the `UIComment` for a log row. -/
def toUIComment (r : LogRow) : UIComment :=
  { author := r.author, body := r.body, timestamp := r.createdAt }

/-- One step of the grouping loop:
`if (!byThread.has(r.threadId)) byThread.set(r.threadId, []);
byThread.get(r.threadId)!.push(r)`. -/
def pushRow (m : List (String × List LogRow)) (r : LogRow) :
    List (String × List LogRow) :=
  jset m r.threadId ((jget m r.threadId).getD [] ++ [r])

/-- Group the log rows by `threadId`, keys in order of first occurrence,
each bucket in file order. -/
def groupByThread (rows : List LogRow) : List (String × List LogRow) :=
  rows.foldl pushRow []

/-- Stable insertion by ascending `seq` (an element is placed before the
first strictly larger key, after equal keys seen earlier). -/
def insertBySeq (x : LogRow) : List LogRow → List LogRow
  | [] => [x]
  | y :: ys => if x.seq ≤ y.seq then x :: y :: ys else y :: insertBySeq x ys

/-- `list.sort((a, b) => (a.seq ?? 0) - (b.seq ?? 0))`: a stable ascending
sort by `seq` (JS `Array.prototype.sort` is stable; `seq` is always present
at the typed level, so `?? 0` never fires). -/
def sortBySeq (l : List LogRow) : List LogRow :=
  l.foldr insertBySeq []

/-- A restored UI thread: id, parsed URI, anchor range, persisted state
(`isClosed`, `contextValue`) and its ordered comments.  The constant
`collapsibleState = Collapsed` is dropped. -/
structure RestoredThread where
  threadId : String
  uri : String
  range : Range
  isClosed : Bool
  contextValue : String
  comments : List UIComment
deriving DecidableEq, Repr

/-- `restoreExistingThreads` of `comment-controller.ts`, parametrized by
`parseStoredUri` (`parseUri`; `none` models the function throwing, in which
case the thread is skipped with a warning). -/
def restoreExistingThreads (parseUri : String → Option String)
    (indexData : IndexDoc) (rows : List LogRow) : List RestoredThread :=
  let byThread := (groupByThread rows).map (fun p => (p.1, sortBySeq p.2))
  indexData.threads.filterMap (fun p =>
    match parseUri p.2.uri with
    | none => none
    | some uri =>
      let isClosed := match p.2.state with
                      | ThreadState.closed => true
                      | ThreadState.opened => false
      some { threadId := p.1, uri := uri, range := p.2.range,
             isClosed := isClosed,
             contextValue :=
               if isClosed then "locore:resolved" else "locore:unresolved",
             comments := ((jget byThread p.1).getD []).map toUIComment })

/-! ## Raw JSON level: `readIndexJson` and `readAllJsonl`
(`review-store.ts`)

File contents are modelled as the outcome of reading and `JSON.parse`-ing:
`none` collapses "file missing / read error" and "unparsable as JSON" (both
reach the same `catch`). -/

/-- A JSON value as produced by `JSON.parse` (object keys already
deduplicated, last occurrence winning). -/
inductive Jval where
  | null
  | bool (b : Bool)
  | num (n : Int)
  | str (s : String)
  | arr (elems : List Jval)
  | obj (fields : List (String × Jval))
deriving Repr

/-- The default document `{version:1, lastSeq:0, threads:{}, byUri:{}}` as a
JSON value. -/
def defaultIndexJson : Jval :=
  Jval.obj [("version", Jval.num 1), ("lastSeq", Jval.num 0),
            ("threads", Jval.obj []), ("byUri", Jval.obj [])]

/-- JS truthiness of a `JSON.parse` result (for `!parsed`). -/
def jsTruthyJ : Jval → Bool
  | Jval.null => false
  | Jval.bool b => b
  | Jval.num n => !(n == 0)
  | Jval.str s => !(s == "")
  | Jval.arr _ => true
  | Jval.obj _ => true

/-- `typeof parsed === 'object'` for a `JSON.parse` result: objects, arrays
and `null` (the latter is unreachable after the truthiness check). -/
def typeofIsObject : Jval → Bool
  | Jval.obj _ => true
  | Jval.arr _ => true
  | Jval.null => true
  | _ => false

/-- `'version' in parsed`: a key of an object; never an element index of an
array. -/
def hasVersionKey : Jval → Bool
  | Jval.obj kvs => kvs.any (fun p => p.1 == "version")
  | _ => false

/-- `readIndexJson` of `review-store.ts` on the parse outcome of
`index.json`: a missing/unreadable/unparsable file (`none`), a falsy or
non-object value, or an object without a `version` key all yield the default
document; any other value is returned as-is (the source performs an
unchecked cast). -/
def readIndexJson (file : Option Jval) : Jval :=
  match file with
  | none => defaultIndexJson
  | some parsed =>
    if !jsTruthyJ parsed || !typeofIsObject parsed then defaultIndexJson
    else if !hasVersionKey parsed then defaultIndexJson
    else parsed

/-- One physical line of `review.jsonl` after `trim()`: empty, not valid
JSON (`JSON.parse` throws), or parsed to a value. -/
inductive JsonLine where
  | blank
  | malformed
  | parsed (j : Jval)
deriving Repr

/-- The filter applied per line by `readAllJsonl`: blank lines are skipped,
parse failures are swallowed, and a parsed value is kept iff it is truthy
with `typeof obj.threadId === 'string'` — that is, iff it is an object whose
`threadId` field is a string. -/
def keepLine : JsonLine → Option Jval
  | JsonLine.blank => none
  | JsonLine.malformed => none
  | JsonLine.parsed j =>
    match j with
    | Jval.obj kvs =>
      match kvs.find? (fun p => p.1 == "threadId") with
      | some (_, Jval.str _) => some (Jval.obj kvs)
      | _ => none
    | _ => none

/-- `readAllJsonl` of `review-store.ts` on the parse outcomes of the lines of
`review.jsonl` (`none` = file missing/unreadable, which yields `[]`). -/
def readAllJsonl (file : Option (List JsonLine)) : List Jval :=
  match file with
  | none => []
  | some lines => lines.filterMap keepLine

/-! ## Specification-side predicates (from the spec's wording, for
refinement statements) -/

/-- Spec side: "is a JSON object" (arrays and `null` are not objects). -/
def isJsonObject : Jval → Bool
  | Jval.obj _ => true
  | _ => false

/-- The parse outcome of a physical line, forgetting the skip logic. -/
def parsedOf : JsonLine → Option Jval
  | JsonLine.parsed j => some j
  | _ => none

/-- Spec side: "parses as a JSON object with a string `threadId` field". -/
def isThreadRowObj : Jval → Bool
  | Jval.obj kvs =>
    match kvs.find? (fun p => p.1 == "threadId") with
    | some (_, Jval.str _) => true
    | _ => false
  | _ => false

/-! ## Batch driver and invariants used by the theorems -/

/-- One `upsertComment` user action: the live thread it is invoked on, the
two `generateUuid()` results, the timestamp, and the comment text. -/
structure UpsertInput where
  thread : LiveThread
  freshThreadId : String
  freshCommentId : String
  nowIso : String
  body : String

/-- Run a sequence of `upsertReview` calls, threading the `threadIdMap` and
the store. -/
def upsertMany (keyFn : String → String → String) (root author : String) :
    List UpsertInput → List (Nat × String) → Store →
    Option (List (Nat × String) × Store)
  | [], tmap, st => some (tmap, st)
  | inp :: rest, tmap, st =>
    match upsertReview keyFn root inp.freshThreadId inp.freshCommentId
        inp.nowIso author tmap st inp.thread inp.body with
    | none => none
    | some res => upsertMany keyFn root author rest res.tmap res.store

/-- Per-thread sequence statistics invariant (the amended form of the spec's
`commentCount == lastSeq - firstSeq + 1`): an entry with comments has both
cursors set, `firstSeq ≤ lastSeq ≤ index.lastSeq`, and at most
`lastSeq - firstSeq + 1` comments; an entry without comments has no
`firstSeq` yet. -/
def SeqInv (d : IndexDoc) : Prop :=
  ∀ p ∈ d.threads,
    (p.2.commentCount = 0 → p.2.firstSeq = none) ∧
    (0 < p.2.commentCount → ∃ f l, p.2.firstSeq = some f ∧
      p.2.lastSeq = some l ∧ f ≤ l ∧ l ≤ d.lastSeq ∧
      p.2.commentCount ≤ l - f + 1)

/-- The `ThreadEntry` a fresh-thread `upsertReview` run leaves behind when
its comment got global sequence number `seq`. -/
def entryOfInput (inp : UpsertInput) (seq : Nat) : ThreadEntry :=
  { threadId := inp.freshThreadId, uri := inp.thread.uri,
    range := effRange inp.thread, state := ThreadState.opened,
    createdAt := inp.nowIso, updatedAt := inp.nowIso,
    commentCount := 1, firstSeq := some seq, lastSeq := some seq }

/-- The log row a fresh-thread `upsertReview` run appends at sequence
number `seq`. -/
def rowOfInput (author : String) (inp : UpsertInput) (seq : Nat) : LogRow :=
  { threadId := inp.freshThreadId, commentId := inp.freshCommentId,
    seq := seq, createdAt := inp.nowIso, author := author, body := inp.body }

/-- The `threads` dictionary after fresh-thread upserts of the given inputs,
the first comment receiving sequence number `off + 1`. -/
def threadsOf : Nat → List UpsertInput → List (String × ThreadEntry)
  | _, [] => []
  | off, p :: ps =>
    (p.freshThreadId, entryOfInput p (off + 1)) :: threadsOf (off + 1) ps

/-- The log after fresh-thread upserts of the given inputs, the first
comment receiving sequence number `off + 1`. -/
def rowsOf (author : String) : Nat → List UpsertInput → List LogRow
  | _, [] => []
  | off, p :: ps => rowOfInput author p (off + 1) :: rowsOf author (off + 1) ps

/-- The `threadIdMap` after fresh-thread upserts of the given inputs. -/
def tmapOf (inputs : List UpsertInput) : List (Nat × String) :=
  inputs.map (fun p => (p.thread.tid, p.freshThreadId))

/-- The ids `byUri[u]` holds after fresh-thread upserts of the given
inputs. -/
def idsForUri (inputs : List UpsertInput) (u : String) : List String :=
  (inputs.filter (fun p => p.thread.uri = u)).map (·.freshThreadId)

/-- State shape after a run of fresh-thread upserts of `processed` from the
empty store (`byUri` characterised pointwise). -/
def GoodState (author : String) (processed : List UpsertInput)
    (tmap : List (Nat × String)) (st : Store) : Prop :=
  tmap = tmapOf processed ∧
  st.index.lastSeq = processed.length ∧
  st.index.threads = threadsOf 0 processed ∧
  st.log = rowsOf author 0 processed ∧
  ∀ u, jget st.index.byUri u =
    (if idsForUri processed u = [] then none else some (idsForUri processed u))

/-! ## Concrete scenario constants -/

/-- The scenario thread `threadA@fileX:[0,0]-[0,5]`. -/
def threadA : LiveThread :=
  { tid := 0, uri := "file:///ws/fileX", range := some ⟨⟨0, 0⟩, ⟨0, 5⟩⟩ }

/-- A simple `keyFromThread` stand-in used for concrete runs: every URI maps
to the same workspace-relative key namespace, disjoint from `file:///` URIs
by construction. -/
def kf0 : String → String → String := fun u _ => "rel:" ++ u

/-- A well-formed `review.jsonl` row as a JSON value. -/
def sampleRow (tid cid : String) (n : Int) : Jval :=
  Jval.obj [("threadId", Jval.str tid), ("commentId", Jval.str cid),
            ("seq", Jval.num n), ("createdAt", Jval.str "T"),
            ("author", Jval.str "alice"), ("body", Jval.str "hello")]

/-! ## Helper lemmas about JS dictionaries -/

theorem jget_nil {κ α : Type} [DecidableEq κ] (k : κ) :
    jget ([] : List (κ × α)) k = none := rfl

theorem jget_cons {κ α : Type} [DecidableEq κ] (k : κ) (p : κ × α)
    (m : List (κ × α)) :
    jget (p :: m) k = if p.1 = k then some p.2 else jget m k := by
  by_cases h : p.1 = k
  · simp [jget, List.find?_cons_of_pos, h]
  · rw [if_neg h]
    simp only [jget]
    rw [List.find?_cons_of_neg]
    simpa using h

theorem jget_jset_self {κ α : Type} [DecidableEq κ] (m : List (κ × α))
    (k : κ) (v : α) : jget (jset m k v) k = some v := by
  induction m with
  | nil => simp [jset, jget_cons]
  | cons p rest ih =>
    by_cases h : p.1 = k
    · simp [jset, h, jget_cons]
    · simp [jset, h, jget_cons, ih]

theorem jget_jset_ne {κ α : Type} [DecidableEq κ] (m : List (κ × α))
    (k k' : κ) (v : α) (h : k ≠ k') :
    jget (jset m k v) k' = jget m k' := by
  induction m with
  | nil => simp [jset, jget_cons, jget_nil, h]
  | cons p rest ih =>
    by_cases hp : p.1 = k
    · simp [jset, hp, jget_cons, h]
    · simp [jset, hp, jget_cons, ih]

theorem jset_eq_append {κ α : Type} [DecidableEq κ] (m : List (κ × α))
    (k : κ) (v : α) (h : ∀ p ∈ m, p.1 ≠ k) :
    jset m k v = m ++ [(k, v)] := by
  induction m with
  | nil => rfl
  | cons p rest ih =>
    have hp : p.1 ≠ k := h p (List.mem_cons_self p rest)
    simp only [jset, if_neg hp, List.cons_append]
    exact congrArg (p :: ·) (ih (fun q hq => h q (List.mem_cons_of_mem p hq)))

theorem jget_append_left {κ α : Type} [DecidableEq κ] (m₁ m₂ : List (κ × α))
    (k : κ) (v : α) (h : jget m₁ k = some v) :
    jget (m₁ ++ m₂) k = some v := by
  induction m₁ with
  | nil => simp [jget_nil] at h
  | cons p rest ih =>
    rcases p with ⟨k', v'⟩
    rw [jget_cons] at h
    by_cases hk : k' = k
    · simp only [List.cons_append, jget_cons, if_pos hk]
      simpa [if_pos hk] using h
    · rw [if_neg hk] at h
      simpa [List.cons_append, jget_cons, if_neg hk] using ih h

theorem jget_append_right {κ α : Type} [DecidableEq κ] (m₁ m₂ : List (κ × α))
    (k : κ) (h : jget m₁ k = none) :
    jget (m₁ ++ m₂) k = jget m₂ k := by
  induction m₁ with
  | nil => rfl
  | cons p rest ih =>
    rcases p with ⟨k', v'⟩
    rw [jget_cons] at h
    by_cases hk : k' = k
    · simp [if_pos hk] at h
    · rw [if_neg hk] at h
      simpa [List.cons_append, jget_cons, if_neg hk] using ih h

theorem jget_eq_some_mem {κ α : Type} [DecidableEq κ] (m : List (κ × α))
    (k : κ) (v : α) (h : jget m k = some v) : (k, v) ∈ m := by
  induction m with
  | nil => simp [jget_nil] at h
  | cons p rest ih =>
    rcases p with ⟨k', v'⟩
    rw [jget_cons] at h
    by_cases hk : k' = k
    · rw [if_pos hk] at h
      subst hk
      cases h
      exact List.mem_cons_self _ _
    · rw [if_neg hk] at h
      exact List.mem_cons_of_mem _ (ih h)

theorem mem_jset {κ α : Type} [DecidableEq κ] (m : List (κ × α))
    (k : κ) (v : α) (p : κ × α) (h : p ∈ jset m k v) :
    p = (k, v) ∨ p ∈ m := by
  induction m with
  | nil =>
    simp only [jset] at h
    rcases List.mem_singleton.mp h with h'
    exact Or.inl h'
  | cons q rest ih =>
    by_cases hq : q.1 = k
    · simp only [jset, if_pos hq] at h
      rcases List.mem_cons.mp h with h' | h'
      · exact Or.inl h'
      · exact Or.inr (List.mem_cons_of_mem q h')
    · simp only [jset, if_neg hq] at h
      rcases List.mem_cons.mp h with h' | h'
      · exact Or.inr (h' ▸ List.mem_cons_self q rest)
      · rcases ih h' with h'' | h''
        · exact Or.inl h''
        · exact Or.inr (List.mem_cons_of_mem q h'')

theorem rangesMatch_iff (a b : Range) : rangesMatch a b = true ↔ a = b := by
  rcases a with ⟨⟨l₁, c₁⟩, ⟨l₂, c₂⟩⟩
  rcases b with ⟨⟨l₃, c₃⟩, ⟨l₄, c₄⟩⟩
  simp [rangesMatch, Range.mk.injEq, Pos.mk.injEq, and_assoc]

theorem jset_jset {κ α : Type} [DecidableEq κ] (m : List (κ × α)) (k : κ)
    (v v' : α) : jset (jset m k v) k v' = jset m k v' := by
  induction m with
  | nil => simp [jset]
  | cons p rest ih =>
    by_cases h : p.1 = k
    · simp [jset, h]
    · simp [jset, h, ih]

/-- One-step characterisation of `upsertReview` when identity resolution
fails (a fresh thread is minted). -/
theorem upsertReview_mint (keyFn : String → String → String)
    (root fid cid now author body : String) (tmap : List (Nat × String))
    (st : Store) (thread : LiveThread)
    (h : normId (jsOrStr (jget tmap thread.tid)
      (resolveThreadIdFromIndex keyFn (some root) st.index thread)) = none) :
    upsertReview keyFn root fid cid now author tmap st thread body =
      some { store :=
               { index :=
                   { lastSeq := st.index.lastSeq + 1,
                     threads := jset st.index.threads fid
                         { threadId := fid, uri := thread.uri,
                           range := effRange thread,
                           state := ThreadState.opened,
                           createdAt := now, updatedAt := now,
                           commentCount := 1,
                           firstSeq := some (st.index.lastSeq + 1),
                           lastSeq := some (st.index.lastSeq + 1) },
                     byUri := pushByUri st.index.byUri thread.uri fid },
                 log := st.log ++
                     [{ threadId := fid, commentId := cid,
                        seq := st.index.lastSeq + 1, createdAt := now,
                        author := author, body := body }] },
             tmap := jset tmap thread.tid fid, threadId := fid,
             isNewThread := true } := by
  simp only [upsertReview]
  rw [h]
  simp only [Option.isNone_none, jget_jset_self, jset_jset, mkNewEntry]

/-- One-step characterisation of `upsertReview` when identity resolution
succeeds (a reply to the stored thread `tid0`). -/
theorem upsertReview_resolved (keyFn : String → String → String)
    (root fid cid now author body : String) (tmap : List (Nat × String))
    (st : Store) (thread : LiveThread) (tid0 : String) (t : ThreadEntry)
    (h : normId (jsOrStr (jget tmap thread.tid)
      (resolveThreadIdFromIndex keyFn (some root) st.index thread)) =
      some tid0)
    (ht : jget st.index.threads tid0 = some t) :
    upsertReview keyFn root fid cid now author tmap st thread body =
      some { store :=
               { index :=
                   { lastSeq := st.index.lastSeq + 1,
                     threads := jset st.index.threads tid0
                         { t with
                           commentCount := t.commentCount + 1,
                           updatedAt := now,
                           firstSeq := (match t.firstSeq with
                                        | some f => some f
                                        | none =>
                                          some (st.index.lastSeq + 1)),
                           lastSeq := some (st.index.lastSeq + 1) },
                     byUri := st.index.byUri },
                 log := st.log ++
                     [{ threadId := tid0, commentId := cid,
                        seq := st.index.lastSeq + 1, createdAt := now,
                        author := author, body := body }] },
             tmap := tmap, threadId := tid0, isNewThread := false } := by
  simp only [upsertReview]
  rw [h]
  simp only [Option.isNone_some, ht]

/-- One-step characterisation of `setThreadState` when identity resolution
fails (a fresh entry is minted, then updated). -/
theorem setThreadState_mint (keyFn : String → String → String)
    (root fid now : String) (state : ThreadState)
    (tmap : List (Nat × String)) (st : Store) (thread : LiveThread)
    (h : normId (jsOrStr (jget tmap thread.tid)
      (resolveThreadIdFromIndex keyFn (some root) st.index thread)) = none) :
    setThreadState keyFn root fid now state tmap st thread = some
      { store :=
          { index :=
              { lastSeq := st.index.lastSeq,
                threads := jset st.index.threads fid
                    { threadId := fid, uri := keyFn thread.uri root,
                      range := effRange thread, state := state,
                      createdAt := now, updatedAt := now,
                      commentCount := 0,
                      firstSeq := none, lastSeq := none },
                byUri := pushByUri
                    (cleanupAbsKey
                      (pushByUri st.index.byUri (keyFn thread.uri root) fid)
                      thread.uri fid)
                    (keyFn thread.uri root) fid },
            log := st.log },
        tmap := jset tmap thread.tid fid, threadId := fid } := by
  simp only [setThreadState]
  rw [h]
  simp only [jget_jset_self, jset_jset, mkNewEntry]

/-- One-step characterisation of `setThreadState` when identity resolution
succeeds. -/
theorem setThreadState_resolved (keyFn : String → String → String)
    (root fid now : String) (state : ThreadState)
    (tmap : List (Nat × String)) (st : Store) (thread : LiveThread)
    (tid0 : String) (t : ThreadEntry)
    (h : normId (jsOrStr (jget tmap thread.tid)
      (resolveThreadIdFromIndex keyFn (some root) st.index thread)) =
      some tid0)
    (ht : jget st.index.threads tid0 = some t) :
    setThreadState keyFn root fid now state tmap st thread = some
      { store :=
          { index :=
              { lastSeq := st.index.lastSeq,
                threads := jset st.index.threads tid0
                    { t with
                      state := state, updatedAt := now,
                      uri := keyFn thread.uri root },
                byUri := pushByUri
                    (cleanupAbsKey st.index.byUri thread.uri tid0)
                    (keyFn thread.uri root) tid0 },
            log := st.log },
        tmap := tmap, threadId := tid0 } := by
  simp only [setThreadState]
  rw [h]
  simp only [ht]

/-- `upsertReview` throws (models as `none`) when a stale `threadIdMap`
entry resolves to an id absent from the index. -/
theorem upsertReview_stale (keyFn : String → String → String)
    (root fid cid now author body : String) (tmap : List (Nat × String))
    (st : Store) (thread : LiveThread) (tid0 : String)
    (h : normId (jsOrStr (jget tmap thread.tid)
      (resolveThreadIdFromIndex keyFn (some root) st.index thread)) =
      some tid0)
    (ht : jget st.index.threads tid0 = none) :
    upsertReview keyFn root fid cid now author tmap st thread body =
      none := by
  simp only [upsertReview]
  rw [h]
  simp only [ht]

/-- `setThreadState` throws (models as `none`) when a stale `threadIdMap`
entry resolves to an id absent from the index. -/
theorem setThreadState_stale (keyFn : String → String → String)
    (root fid now : String) (state : ThreadState)
    (tmap : List (Nat × String)) (st : Store) (thread : LiveThread)
    (tid0 : String)
    (h : normId (jsOrStr (jget tmap thread.tid)
      (resolveThreadIdFromIndex keyFn (some root) st.index thread)) =
      some tid0)
    (ht : jget st.index.threads tid0 = none) :
    setThreadState keyFn root fid now state tmap st thread = none := by
  simp only [setThreadState]
  rw [h]
  simp only [ht]

theorem scanCandidates_nil (r : Range) (ids : List String) :
    scanCandidates [] r ids = none := by
  induction ids with
  | nil => rfl
  | cons id rest ih => simp [scanCandidates, jget_nil, ih]

theorem keepLine_eq (l : JsonLine) :
    keepLine l = (parsedOf l).bind
      (fun j => if isThreadRowObj j then some j else none) := by
  cases l with
  | blank => rfl
  | malformed => rfl
  | parsed j =>
    cases j with
    | obj kvs =>
      simp only [keepLine, parsedOf, Option.some_bind]
      rcases h : kvs.find? (fun p => p.1 == "threadId") with _ | ⟨k, v⟩
      · simp [isThreadRowObj, h]
      · cases v <;> simp [isThreadRowObj, h]
    | null => rfl
    | bool b => rfl
    | num n => rfl
    | str s => rfl
    | arr xs => rfl

theorem filterMap_keepLine (lines : List JsonLine) :
    lines.filterMap keepLine =
      (lines.filterMap parsedOf).filter isThreadRowObj := by
  induction lines with
  | nil => rfl
  | cons l ls ih =>
    simp only [List.filterMap_cons]
    rw [keepLine_eq l]
    cases hp : parsedOf l with
    | none => simpa using ih
    | some j =>
      by_cases hj : isThreadRowObj j
      · simp [hj, List.filter_cons, ih]
      · simp [hj, List.filter_cons, ih]

/-! ## C5 -/

/-- **C5.** Index load never raises: a missing or unparsable `index.json`
(both modelled as a `none` parse outcome), a parse result that is not a
JSON object, and an object lacking a version tag all load as the fresh
default document `{version:1, lastSeq:0, threads:{}, byUri:{}}`; a document
bearing a version tag loads as itself.  The version tag the source
recognises is key presence (`'version' in parsed`). -/
theorem readIndexJson_self_healing (file : Option Jval) :
    (file = none → readIndexJson file = defaultIndexJson) ∧
    (∀ p, file = some p → isJsonObject p = false →
      readIndexJson file = defaultIndexJson) ∧
    (∀ kvs, file = some (Jval.obj kvs) →
      kvs.any (fun q => q.1 == "version") = false →
      readIndexJson file = defaultIndexJson) ∧
    (∀ kvs, file = some (Jval.obj kvs) →
      kvs.any (fun q => q.1 == "version") = true →
      readIndexJson file = Jval.obj kvs) := by
  refine ⟨?_, ?_, ?_, ?_⟩
  · rintro rfl
    rfl
  · rintro p rfl h
    cases p <;>
      simp_all [readIndexJson, isJsonObject, jsTruthyJ, typeofIsObject,
        hasVersionKey]
  · rintro kvs rfl h
    simp [readIndexJson, jsTruthyJ, typeofIsObject, hasVersionKey, h]
  · rintro kvs rfl h
    simp [readIndexJson, jsTruthyJ, typeofIsObject, hasVersionKey, h]

/-- Witness for C5: a non-object file, an object without a version tag, and
a versioned document, each loaded concretely. -/
theorem readIndexJson_self_healing_witness :
    readIndexJson (some (Jval.arr [Jval.num 1])) = defaultIndexJson ∧
    readIndexJson (some (Jval.obj [("lastSeq", Jval.num 7)])) =
      defaultIndexJson ∧
    readIndexJson (some (Jval.obj [("version", Jval.num 1),
        ("lastSeq", Jval.num 7)])) =
      Jval.obj [("version", Jval.num 1), ("lastSeq", Jval.num 7)] :=
  ⟨(readIndexJson_self_healing _).2.1 _ rfl rfl,
   (readIndexJson_self_healing _).2.2.1 _ rfl rfl,
   (readIndexJson_self_healing _).2.2.2 _ rfl rfl⟩

/-! ## C6 -/

/-- **C6.** Log `readAll` never raises: an unreadable file yields `[]`, and
otherwise exactly those lines survive, in file order, that parsed as a JSON
object with a string `threadId` field; blank and malformed lines are
silently skipped.  Concretely, a log of a well-formed row, a malformed
line, and another well-formed row reads back as exactly the two well-formed
rows in file order. -/
theorem readAllJsonl_skips_bad_lines (lines : List JsonLine) :
    readAllJsonl none = [] ∧
    readAllJsonl (some lines) =
      (lines.filterMap parsedOf).filter isThreadRowObj ∧
    readAllJsonl (some [JsonLine.parsed (sampleRow "t1" "c1" 1),
        JsonLine.malformed,
        JsonLine.parsed (sampleRow "t1" "c2" 2)]) =
      [sampleRow "t1" "c1" 1, sampleRow "t1" "c2" 2] :=
  ⟨rfl, filterMap_keepLine lines, rfl⟩

/-! ## C1 -/

/-- **C1.** From the empty store, the first `upsertComment` on a live thread
anchored at `fileX:[0,0]-[0,5]` creates exactly one `ThreadEntry` with
`state = open`, `firstSeq = 1`, `lastSeq = 1`, `commentCount = 1` and
appends exactly one log row with `seq = 1`; a second `upsertComment` on the
same live thread reuses the same `threadId` and leaves `commentCount = 2`,
`lastSeq = 2`, `index.lastSeq = 2` and exactly two log rows.  Stated for
every `keyFromThread` implementation and workspace root. -/
theorem upsert_first_two_comments (keyFn : String → String → String)
    (root : String) :
    upsertReview keyFn root "tA" "c1" "T1" "alice" [] emptyStore threadA
        "first" =
      some { store :=
               { index :=
                   { lastSeq := 1,
                     threads :=
                       [("tA",
                         { threadId := "tA", uri := "file:///ws/fileX",
                           range := ⟨⟨0, 0⟩, ⟨0, 5⟩⟩,
                           state := ThreadState.opened,
                           createdAt := "T1", updatedAt := "T1",
                           commentCount := 1, firstSeq := some 1,
                           lastSeq := some 1 })],
                     byUri := [("file:///ws/fileX", ["tA"])] },
                 log := [{ threadId := "tA", commentId := "c1", seq := 1,
                           createdAt := "T1", author := "alice",
                           body := "first" }] },
             tmap := [(0, "tA")], threadId := "tA",
             isNewThread := true } ∧
    upsertReview keyFn root "tUnused" "c2" "T2" "alice" [(0, "tA")]
        { index :=
            { lastSeq := 1,
              threads :=
                [("tA",
                  { threadId := "tA", uri := "file:///ws/fileX",
                    range := ⟨⟨0, 0⟩, ⟨0, 5⟩⟩,
                    state := ThreadState.opened,
                    createdAt := "T1", updatedAt := "T1",
                    commentCount := 1, firstSeq := some 1,
                    lastSeq := some 1 })],
              byUri := [("file:///ws/fileX", ["tA"])] },
          log := [{ threadId := "tA", commentId := "c1", seq := 1,
                    createdAt := "T1", author := "alice",
                    body := "first" }] }
        threadA "second" =
      some { store :=
               { index :=
                   { lastSeq := 2,
                     threads :=
                       [("tA",
                         { threadId := "tA", uri := "file:///ws/fileX",
                           range := ⟨⟨0, 0⟩, ⟨0, 5⟩⟩,
                           state := ThreadState.opened,
                           createdAt := "T1", updatedAt := "T2",
                           commentCount := 2, firstSeq := some 1,
                           lastSeq := some 2 })],
                     byUri := [("file:///ws/fileX", ["tA"])] },
                 log := [{ threadId := "tA", commentId := "c1", seq := 1,
                           createdAt := "T1", author := "alice",
                           body := "first" },
                         { threadId := "tA", commentId := "c2", seq := 2,
                           createdAt := "T2", author := "alice",
                           body := "second" }] },
             tmap := [(0, "tA")], threadId := "tA",
             isNewThread := false } := by
  constructor
  · have hres : normId (jsOrStr (jget ([] : List (Nat × String)) threadA.tid)
        (resolveThreadIdFromIndex keyFn (some root) emptyStore.index
          threadA)) = none := by
      simp [normId, jsOrStr, jget_nil, resolveThreadIdFromIndex,
        emptyStore, emptyIndex, scanCandidates_nil]
    rw [upsertReview_mint keyFn root "tA" "c1" "T1" "alice" "first" []
      emptyStore threadA hres]
    rfl
  · rfl

/-! ## C9 -/

/-- **C9.** `upsertComment` on an existing thread leaves the stored entry's
`state` unchanged (only `commentCount`, `updatedAt`, `firstSeq`, `lastSeq`
move): a closed thread that receives a reply stays closed. -/
theorem upsert_preserves_state (keyFn : String → String → String)
    (root fid cid now author body : String) (tmap : List (Nat × String))
    (st : Store) (thread : LiveThread) (tid0 : String) (t : ThreadEntry)
    (h : normId (jsOrStr (jget tmap thread.tid)
      (resolveThreadIdFromIndex keyFn (some root) st.index thread)) =
      some tid0)
    (ht : jget st.index.threads tid0 = some t) :
    ∃ res, upsertReview keyFn root fid cid now author tmap st thread body =
        some res ∧
      res.threadId = tid0 ∧ res.isNewThread = false ∧
      ∃ t1, jget res.store.index.threads tid0 = some t1 ∧
        t1.state = t.state ∧ t1.commentCount = t.commentCount + 1 := by
  refine ⟨_, upsertReview_resolved keyFn root fid cid now author body tmap
    st thread tid0 t h ht, rfl, rfl, ?_⟩
  exact ⟨_, jget_jset_self _ _ _, rfl, rfl⟩

/-- Witness for C9: a reply to a stored closed thread keeps it closed. -/
theorem upsert_preserves_state_witness :
    ∃ res, upsertReview kf0 "ws" "f" "c" "T2" "alice" [(0, "tX")]
        { index :=
            { lastSeq := 1,
              threads :=
                [("tX",
                  { threadId := "tX", uri := "file:///ws/a",
                    range := ⟨⟨1, 2⟩, ⟨3, 4⟩⟩,
                    state := ThreadState.closed,
                    createdAt := "T0", updatedAt := "T0",
                    commentCount := 1, firstSeq := some 1,
                    lastSeq := some 1 })],
              byUri := [("file:///ws/a", ["tX"])] },
          log := [] }
        ⟨0, "file:///ws/a", some ⟨⟨1, 2⟩, ⟨3, 4⟩⟩⟩ "re" = some res ∧
      res.threadId = "tX" ∧ res.isNewThread = false ∧
      ∃ t1, jget res.store.index.threads "tX" = some t1 ∧
        t1.state = ThreadState.closed ∧ t1.commentCount = 2 :=
  upsert_preserves_state kf0 "ws" "f" "c" "T2" "alice" "re" [(0, "tX")]
    { index :=
        { lastSeq := 1,
          threads :=
            [("tX",
              { threadId := "tX", uri := "file:///ws/a",
                range := ⟨⟨1, 2⟩, ⟨3, 4⟩⟩,
                state := ThreadState.closed,
                createdAt := "T0", updatedAt := "T0",
                commentCount := 1, firstSeq := some 1,
                lastSeq := some 1 })],
          byUri := [("file:///ws/a", ["tX"])] },
      log := [] }
    ⟨0, "file:///ws/a", some ⟨⟨1, 2⟩, ⟨3, 4⟩⟩⟩ "tX"
    { threadId := "tX", uri := "file:///ws/a",
      range := ⟨⟨1, 2⟩, ⟨3, 4⟩⟩, state := ThreadState.closed,
      createdAt := "T0", updatedAt := "T0", commentCount := 1,
      firstSeq := some 1, lastSeq := some 1 }
    rfl rfl

/-! ## C8 -/

/-- **C8.** `setState(thread, closed)` on a live thread with no resolvable
identity creates a `ThreadEntry` with `commentCount = 0`,
`state = closed` and `updatedAt = now`, and writes no log row; moreover no
`setThreadState` call whatsoever changes the log. -/
theorem setState_closed_no_log (keyFn : String → String → String)
    (root fid now : String) (tmap : List (Nat × String)) (st : Store)
    (thread : LiveThread)
    (h : normId (jsOrStr (jget tmap thread.tid)
      (resolveThreadIdFromIndex keyFn (some root) st.index thread)) =
      none) :
    (∃ res, setThreadState keyFn root fid now ThreadState.closed tmap st
        thread = some res ∧
      res.store.log = st.log ∧
      jget res.store.index.threads fid = some
        { threadId := fid, uri := keyFn thread.uri root,
          range := effRange thread, state := ThreadState.closed,
          createdAt := now, updatedAt := now, commentCount := 0,
          firstSeq := none, lastSeq := none }) ∧
    (∀ (keyFn' : String → String → String) (root' fid' now' : String)
        (state' : ThreadState) (tmap' : List (Nat × String)) (st' : Store)
        (thread' : LiveThread) (res' : SetStateResult),
      setThreadState keyFn' root' fid' now' state' tmap' st' thread' =
        some res' → res'.store.log = st'.log) := by
  constructor
  · refine ⟨_, setThreadState_mint keyFn root fid now ThreadState.closed
      tmap st thread h, rfl, ?_⟩
    exact jget_jset_self _ _ _
  · intro keyFn' root' fid' now' state' tmap' st' thread' res' hcall
    rcases hr : normId (jsOrStr (jget tmap' thread'.tid)
        (resolveThreadIdFromIndex keyFn' (some root') st'.index thread'))
      with _ | tid0
    · rw [setThreadState_mint keyFn' root' fid' now' state' tmap' st'
        thread' hr] at hcall
      cases hcall
      rfl
    · rcases ht : jget st'.index.threads tid0 with _ | t
      · rw [setThreadState_stale keyFn' root' fid' now' state' tmap' st'
          thread' tid0 hr ht] at hcall
        cases hcall
      · rw [setThreadState_resolved keyFn' root' fid' now' state' tmap' st'
          thread' tid0 t hr ht] at hcall
        cases hcall
        rfl

/-- Witness for C8: closing a brand-new empty thread on the empty store
creates a closed zero-comment entry and leaves the (empty) log alone. -/
theorem setState_closed_no_log_witness :
    ∃ res, setThreadState kf0 "ws" "tN" "T1" ThreadState.closed []
        emptyStore ⟨0, "file:///ws/a", some ⟨⟨1, 2⟩, ⟨3, 4⟩⟩⟩ =
        some res ∧
      res.store.log = [] ∧
      jget res.store.index.threads "tN" = some
        { threadId := "tN", uri := kf0 "file:///ws/a" "ws",
          range := ⟨⟨1, 2⟩, ⟨3, 4⟩⟩, state := ThreadState.closed,
          createdAt := "T1", updatedAt := "T1", commentCount := 0,
          firstSeq := none, lastSeq := none } :=
  (setState_closed_no_log kf0 "ws" "tN" "T1" [] emptyStore
    ⟨0, "file:///ws/a", some ⟨⟨1, 2⟩, ⟨3, 4⟩⟩⟩ rfl).1

/-! ## C2 -/

/-- Counterexample to C2 as stated: interleaving comments of two threads
breaks `commentCount == lastSeq - firstSeq + 1`, because `seq` is a global
counter.  Three upserts (thread A, thread B, thread A again) leave thread
A's entry with `commentCount = 2`, `firstSeq = 1`, `lastSeq = 3`, and
`2 ≠ 3 - 1 + 1`. -/
theorem seq_contiguity_counterexample :
    ∃ tmap' st' t,
      upsertMany kf0 "ws" "alice"
        [⟨⟨0, "file:///ws/a", some ⟨⟨0, 0⟩, ⟨0, 1⟩⟩⟩, "ta", "c1", "T1",
          "one"⟩,
         ⟨⟨1, "file:///ws/b", some ⟨⟨0, 0⟩, ⟨0, 1⟩⟩⟩, "tb", "c2", "T2",
          "two"⟩,
         ⟨⟨0, "file:///ws/a", some ⟨⟨0, 0⟩, ⟨0, 1⟩⟩⟩, "tX", "c3", "T3",
          "three"⟩]
        [] emptyStore = some (tmap', st') ∧
      jget st'.index.threads "ta" = some t ∧
      0 < t.commentCount ∧ t.firstSeq = some 1 ∧ t.lastSeq = some 3 ∧
      t.commentCount ≠ 3 - 1 + 1 := by
  refine ⟨_, _, _, rfl, rfl, ?_, rfl, rfl, ?_⟩ <;> decide

/-- **C2 (amended).** The per-thread statistics invariant that the code
actually maintains: for every entry with `commentCount > 0`, `firstSeq` and
`lastSeq` are set, `firstSeq ≤ lastSeq ≤ index.lastSeq`, and
`commentCount ≤ lastSeq - firstSeq + 1` (equality fails as soon as comments
of different threads interleave); entries with `commentCount = 0` have no
`firstSeq`.  The invariant holds of the empty store and is preserved by
`upsertComment` and `setState`; restoration does not modify the store. -/
theorem seqInv_preserved :
    SeqInv emptyIndex ∧
    (∀ (keyFn : String → String → String)
        (root fid cid now author body : String)
        (tmap : List (Nat × String)) (st : Store) (thread : LiveThread)
        (res : UpsertResult), SeqInv st.index →
      upsertReview keyFn root fid cid now author tmap st thread body =
        some res → SeqInv res.store.index) ∧
    (∀ (keyFn : String → String → String) (root fid now : String)
        (state : ThreadState) (tmap : List (Nat × String)) (st : Store)
        (thread : LiveThread) (res : SetStateResult), SeqInv st.index →
      setThreadState keyFn root fid now state tmap st thread = some res →
      SeqInv res.store.index) := by
  refine ⟨?_, ?_, ?_⟩
  · intro p hp
    simp [emptyIndex] at hp
  · intro keyFn root fid cid now author body tmap st thread res hinv hcall
    rcases hr : normId (jsOrStr (jget tmap thread.tid)
        (resolveThreadIdFromIndex keyFn (some root) st.index thread))
      with _ | tid0
    · rw [upsertReview_mint keyFn root fid cid now author body tmap st
        thread hr] at hcall
      cases hcall
      intro p hp
      dsimp only at hp ⊢
      rcases mem_jset _ _ _ _ hp with rfl | hpm
      · exact ⟨fun h0 => absurd h0 (by dsimp only; omega),
          fun _ => ⟨st.index.lastSeq + 1, st.index.lastSeq + 1, rfl, rfl,
            le_refl _, le_refl _, by dsimp only; omega⟩⟩
      · rcases hinv p hpm with ⟨h0, hpos⟩
        refine ⟨h0, fun hc => ?_⟩
        rcases hpos hc with ⟨f, l, hf, hl, hfl, hlL, hcnt⟩
        exact ⟨f, l, hf, hl, hfl, by omega, hcnt⟩
    · rcases ht : jget st.index.threads tid0 with _ | t
      · rw [upsertReview_stale keyFn root fid cid now author body tmap st
          thread tid0 hr ht] at hcall
        cases hcall
      · rw [upsertReview_resolved keyFn root fid cid now author body tmap
          st thread tid0 t hr ht] at hcall
        cases hcall
        intro p hp
        dsimp only at hp ⊢
        rcases mem_jset _ _ _ _ hp with rfl | hpm
        · rcases hinv (tid0, t) (jget_eq_some_mem _ _ _ ht) with ⟨h0, hpos⟩
          dsimp only at h0 hpos
          rcases hf : t.firstSeq with _ | f
          · have hc0 : t.commentCount = 0 := by
              by_contra hne
              rcases hpos (Nat.pos_of_ne_zero hne) with
                ⟨f2, l, hf2, hl, hfl, hlL, hcnt⟩
              rw [hf] at hf2
              cases hf2
            refine ⟨fun h0x => absurd h0x (by dsimp only; omega),
              fun _ => ?_⟩
            exact ⟨st.index.lastSeq + 1, st.index.lastSeq + 1, rfl, rfl,
              le_refl _, le_refl _, by dsimp only; omega⟩
          · have hcpos : 0 < t.commentCount := by
              rcases Nat.eq_zero_or_pos t.commentCount with hz | hpos'
              · rw [h0 hz] at hf
                cases hf
              · exact hpos'
            rcases hpos hcpos with ⟨f2, l, hf2, hl, hfl, hlL, hcnt⟩
            rw [hf] at hf2
            injection hf2 with hf2
            subst hf2
            refine ⟨fun h0x => absurd h0x (by dsimp only; omega),
              fun _ => ?_⟩
            exact ⟨f, st.index.lastSeq + 1, rfl, rfl, by omega, le_refl _,
              by dsimp only; omega⟩
        · rcases hinv p hpm with ⟨h0, hpos⟩
          refine ⟨h0, fun hc => ?_⟩
          rcases hpos hc with ⟨f, l, hf, hl, hfl, hlL, hcnt⟩
          exact ⟨f, l, hf, hl, hfl, by omega, hcnt⟩
  · intro keyFn root fid now state tmap st thread res hinv hcall
    rcases hr : normId (jsOrStr (jget tmap thread.tid)
        (resolveThreadIdFromIndex keyFn (some root) st.index thread))
      with _ | tid0
    · rw [setThreadState_mint keyFn root fid now state tmap st thread hr]
        at hcall
      cases hcall
      intro p hp
      rcases mem_jset _ _ _ _ hp with rfl | hpm
      · exact ⟨fun _ => rfl, fun hc => absurd hc (by simp)⟩
      · exact hinv p hpm
    · rcases ht : jget st.index.threads tid0 with _ | t
      · rw [setThreadState_stale keyFn root fid now state tmap st thread
          tid0 hr ht] at hcall
        cases hcall
      · rw [setThreadState_resolved keyFn root fid now state tmap st
          thread tid0 t hr ht] at hcall
        cases hcall
        intro p hp
        rcases mem_jset _ _ _ _ hp with rfl | hpm
        · exact hinv (tid0, t) (jget_eq_some_mem _ _ _ ht)
        · exact hinv p hpm

/-! ## C4 -/

/-- A successful scan means: the returned id has a stored entry whose range
equals the probe exactly, and every candidate before it has no exactly
matching entry. -/
theorem scanCandidates_eq_some (threads : List (String × ThreadEntry))
    (r : Range) (ids : List String) (id : String)
    (h : scanCandidates threads r ids = some id) :
    (∃ t, jget threads id = some t ∧ t.range = r) ∧
    ∃ pre suf, ids = pre ++ id :: suf ∧
      ∀ j ∈ pre, ∀ u, jget threads j = some u → u.range ≠ r := by
  induction ids with
  | nil => simp [scanCandidates] at h
  | cons j rest ih =>
    rcases hj : jget threads j with _ | t
    · simp only [scanCandidates, hj] at h
      rcases ih h with ⟨hmatch, pre, suf, heq, hpre⟩
      refine ⟨hmatch, j :: pre, suf, by rw [heq]; rfl, ?_⟩
      intro j' hj' u hu
      rcases List.mem_cons.mp hj' with rfl | hj''
      · rw [hj] at hu
        cases hu
      · exact hpre j' hj'' u hu
    · by_cases hm : rangesMatch t.range r
      · simp only [scanCandidates, hj, hm, if_pos] at h
        cases h
        exact ⟨⟨t, hj, (rangesMatch_iff _ _).mp hm⟩, [], rest, rfl,
          by intro j' hj'; simp at hj'⟩
      · simp only [scanCandidates, hj, hm, if_neg, Bool.false_eq_true,
          if_false] at h
        rcases ih h with ⟨hmatch, pre, suf, heq, hpre⟩
        refine ⟨hmatch, j :: pre, suf, by rw [heq]; rfl, ?_⟩
        intro j' hj' u hu
        rcases List.mem_cons.mp hj' with rfl | hj''
        · rw [hj] at hu
          cases hu
          intro hr
          exact hm ((rangesMatch_iff _ _).mpr hr)
        · exact hpre j' hj'' u hu

/-- A scan over candidates none of which matches exactly returns nothing. -/
theorem scanCandidates_eq_none (threads : List (String × ThreadEntry))
    (r : Range) (ids : List String)
    (h : ∀ j ∈ ids, ∀ u, jget threads j = some u → u.range ≠ r) :
    scanCandidates threads r ids = none := by
  induction ids with
  | nil => rfl
  | cons j rest ih =>
    have hrest : ∀ j' ∈ rest, ∀ u, jget threads j' = some u → u.range ≠ r :=
      fun j' hj' => h j' (List.mem_cons_of_mem j hj')
    rcases hj : jget threads j with _ | t
    · simp only [scanCandidates, hj]
      exact ih hrest
    · have hm : rangesMatch t.range r = false := by
        rcases Bool.eq_false_or_eq_true (rangesMatch t.range r) with h' | h'
        · exact absurd ((rangesMatch_iff _ _).mp h')
            (h j (List.mem_cons_self j rest) t hj)
        · exact h'
      simp only [scanCandidates, hj, hm, Bool.false_eq_true, if_false]
      exact ih hrest

/-- **C4.** Identity resolution returns a stored id only when the location
key matches (the id is among the candidates looked up from `byUri`) and all
four range coordinates are exactly equal to the stored entry's range, and
it returns the first such candidate; when no candidate's entry matches
exactly — in particular when the live range is off by a single character —
it resolves to none, never to a nearest entry. -/
theorem resolve_exact_match_only (keyFn : String → String → String)
    (root : Option String) (d : IndexDoc) (thread : LiveThread) :
    (∀ id, resolveThreadIdFromIndex keyFn root d thread = some id →
      id ∈ candidateIds keyFn root d thread ∧
      (∃ t, jget d.threads id = some t ∧ t.range = effRange thread) ∧
      ∃ pre suf, candidateIds keyFn root d thread = pre ++ id :: suf ∧
        ∀ j ∈ pre, ∀ u, jget d.threads j = some u →
          u.range ≠ effRange thread) ∧
    ((∀ j ∈ candidateIds keyFn root d thread, ∀ u,
        jget d.threads j = some u → u.range ≠ effRange thread) →
      resolveThreadIdFromIndex keyFn root d thread = none) := by
  constructor
  · intro id h
    rcases scanCandidates_eq_some _ _ _ _ h with ⟨hmatch, pre, suf, heq, hpre⟩
    refine ⟨?_, hmatch, pre, suf, heq, hpre⟩
    rw [heq]
    exact List.mem_append_right _ (List.mem_cons_self _ _)
  · intro h
    exact scanCandidates_eq_none _ _ _ h

/-- Witness for C4: a stored thread anchored at `[1,2]-[3,4]` does not
resolve for a live thread whose range is shifted by one character
(`[1,3]-[3,4]`). -/
theorem resolve_exact_match_only_witness :
    resolveThreadIdFromIndex kf0 (some "ws")
      { lastSeq := 1,
        threads :=
          [("tX",
            { threadId := "tX", uri := "file:///ws/a",
              range := ⟨⟨1, 2⟩, ⟨3, 4⟩⟩, state := ThreadState.opened,
              createdAt := "T0", updatedAt := "T0", commentCount := 1,
              firstSeq := some 1, lastSeq := some 1 })],
        byUri := [("file:///ws/a", ["tX"])] }
      ⟨0, "file:///ws/a", some ⟨⟨1, 3⟩, ⟨3, 4⟩⟩⟩ = none := by
  refine (resolve_exact_match_only kf0 (some "ws") _ _).2 ?_
  intro j hj u hu
  have hj2 : j ∈ ["tX"] := hj
  have hj3 := List.mem_singleton.mp hj2
  subst hj3
  have hu2 : some
      ({ threadId := "tX", uri := "file:///ws/a",
         range := ⟨⟨1, 2⟩, ⟨3, 4⟩⟩, state := ThreadState.opened,
         createdAt := "T0", updatedAt := "T0", commentCount := 1,
         firstSeq := some 1, lastSeq := some 1 } : ThreadEntry) = some u :=
    hu
  cases hu2
  decide

/-! ## C10 -/

theorem jsOrStr_none (b : Option String) : jsOrStr none b = b := rfl

theorem jset_nil {κ α : Type} [DecidableEq κ] (k : κ) (v : α) :
    jset ([] : List (κ × α)) k v = [(k, v)] := rfl

theorem resolve_empty (keyFn : String → String → String)
    (root : Option String) (thread : LiveThread) :
    resolveThreadIdFromIndex keyFn root emptyIndex thread = none := by
  simp [resolveThreadIdFromIndex, emptyIndex, scanCandidates_nil]

theorem pushByUri_nil (key tid : String) :
    pushByUri [] key tid = [(key, [tid])] := by
  simp [pushByUri, jget_nil, jset, jget_cons]

/-- When `byUri` holds exactly one bucket, at key `u`, a live thread at
location `u` always gets that bucket as its candidate list, whatever the
relative key is. -/
theorem candidateIds_single (keyFn : String → String → String)
    (root u T : String) (L : Nat) (ths : List (String × ThreadEntry))
    (tid2 : Nat) (rng : Option Range) :
    candidateIds keyFn (some root)
      { lastSeq := L, threads := ths, byUri := [(u, [T])] }
      ⟨tid2, u, rng⟩ = [T] := by
  simp only [candidateIds]
  by_cases hrk : keyFn u root = ""
  · simp [hrk, jget_cons]
  · rw [if_neg hrk]
    by_cases hru : u = keyFn u root
    · rw [jget_cons, if_pos hru]
    · rw [jget_cons, if_neg hru, jget_nil]
      simp [jget_cons]

/-- The `byUri` table `setThreadState` leaves behind when minting on the
empty store: a single bucket under the relative key. -/
theorem setState_empty_byUri (uriKey u T : String) :
    pushByUri (cleanupAbsKey (pushByUri [] uriKey T) u T) uriKey T =
      [(uriKey, [T])] := by
  rw [pushByUri_nil]
  by_cases h : uriKey = u
  · subst h
    simp [cleanupAbsKey, jget_cons, jdel, pushByUri_nil]
  · simp [cleanupAbsKey, jget_cons, h, jget_nil, pushByUri]

/-- **C10.** A live thread whose `range` is `undefined` behaves exactly as
one anchored at `(0,0)-(0,0)` in `upsertComment`, `setState` and identity
resolution; consequently, once one range-less thread at a location has
received an `upsertComment` or a `setState` (starting from the empty
store), any other range-less live thread at the same location resolves —
through the same two-tier `threadIdMap`-then-index resolution those
operations use — to the same stored threadId instead of minting a new
one. -/
theorem rangeless_threads_share_identity
    (keyFn : String → String → String)
    (root u cid now author body T : String) (tid1 tid2 : Nat)
    (hT : T ≠ "") (htid : tid2 ≠ tid1) :
    (∀ (tmap : List (Nat × String)) (st : Store)
        (fid cid2 now2 author2 body2 : String) (tid : Nat),
      upsertReview keyFn root fid cid2 now2 author2 tmap st
          ⟨tid, u, none⟩ body2 =
        upsertReview keyFn root fid cid2 now2 author2 tmap st
          ⟨tid, u, some ⟨⟨0, 0⟩, ⟨0, 0⟩⟩⟩ body2) ∧
    (∀ (tmap : List (Nat × String)) (st : Store) (fid2 now2 : String)
        (state : ThreadState) (tid : Nat),
      setThreadState keyFn root fid2 now2 state tmap st ⟨tid, u, none⟩ =
        setThreadState keyFn root fid2 now2 state tmap st
          ⟨tid, u, some ⟨⟨0, 0⟩, ⟨0, 0⟩⟩⟩) ∧
    (∀ (root2 : Option String) (d : IndexDoc) (tid : Nat),
      resolveThreadIdFromIndex keyFn root2 d ⟨tid, u, none⟩ =
        resolveThreadIdFromIndex keyFn root2 d
          ⟨tid, u, some ⟨⟨0, 0⟩, ⟨0, 0⟩⟩⟩) ∧
    (∃ res, upsertReview keyFn root T cid now author [] emptyStore
        ⟨tid1, u, none⟩ body = some res ∧
      normId (jsOrStr (jget res.tmap tid2)
        (resolveThreadIdFromIndex keyFn (some root) res.store.index
          ⟨tid2, u, none⟩)) = some T) ∧
    (keyFn u root ≠ "" →
      ∃ res, setThreadState keyFn root T now ThreadState.closed []
          emptyStore ⟨tid1, u, none⟩ = some res ∧
        normId (jsOrStr (jget res.tmap tid2)
          (resolveThreadIdFromIndex keyFn (some root) res.store.index
            ⟨tid2, u, none⟩)) = some T) := by
  have hresEmpty : ∀ tid : Nat, normId (jsOrStr
      (jget ([] : List (Nat × String)) tid)
      (resolveThreadIdFromIndex keyFn (some root) emptyStore.index
        ⟨tid, u, none⟩)) = none := by
    intro tid
    simp [normId, jsOrStr, jget_nil, resolve_empty, emptyStore]
  have htm : jget (jset ([] : List (Nat × String)) tid1 T) tid2 = none := by
    rw [jset_nil, jget_cons, if_neg (fun h => htid h.symm)]
    rfl
  refine ⟨fun _ _ _ _ _ _ _ _ => rfl, fun _ _ _ _ _ _ => rfl,
    fun _ _ _ => rfl, ?_, ?_⟩
  · refine ⟨_, upsertReview_mint keyFn root T cid now author body []
      emptyStore ⟨tid1, u, none⟩ (hresEmpty tid1), ?_⟩
    dsimp only
    rw [htm, jsOrStr_none]
    simp only [emptyStore, emptyIndex, jset_nil, pushByUri_nil]
    rw [resolveThreadIdFromIndex, candidateIds_single]
    simp [scanCandidates, jget_cons, effRange, rangesMatch, normId, hT]
  · intro hk
    refine ⟨_, setThreadState_mint keyFn root T now ThreadState.closed []
      emptyStore ⟨tid1, u, none⟩ (hresEmpty tid1), ?_⟩
    dsimp only
    rw [htm, jsOrStr_none]
    simp only [emptyStore, emptyIndex, jset_nil, setState_empty_byUri]
    simp only [resolveThreadIdFromIndex, candidateIds]
    rw [if_neg hk, jget_cons, if_pos rfl]
    simp [scanCandidates, jget_cons, effRange, rangesMatch, normId, hT]

/-- Witness for C10: after an upsert (resp. a close) of a range-less
thread, a second range-less live thread at the same location resolves to
the same stored id. -/
theorem rangeless_threads_share_identity_witness :
    (∃ res, upsertReview kf0 "ws" "t1" "c1" "T1" "alice" [] emptyStore
        ⟨0, "file:///ws/a", none⟩ "one" = some res ∧
      normId (jsOrStr (jget res.tmap 1)
        (resolveThreadIdFromIndex kf0 (some "ws") res.store.index
          ⟨1, "file:///ws/a", none⟩)) = some "t1") ∧
    (∃ res, setThreadState kf0 "ws" "t1" "T1" ThreadState.closed []
        emptyStore ⟨0, "file:///ws/a", none⟩ = some res ∧
      normId (jsOrStr (jget res.tmap 1)
        (resolveThreadIdFromIndex kf0 (some "ws") res.store.index
          ⟨1, "file:///ws/a", none⟩)) = some "t1") := by
  have h := rangeless_threads_share_identity kf0 "ws" "file:///ws/a" "c1"
    "T1" "alice" "one" "t1" 0 1 (by decide) (by decide)
  exact ⟨h.2.2.2.1, h.2.2.2.2 (by decide)⟩

/-! ## C7 -/

theorem jget_map_snd {κ α β : Type} [DecidableEq κ] (f : α → β)
    (m : List (κ × α)) (k : κ) :
    jget (m.map (fun p => (p.1, f p.2))) k = (jget m k).map f := by
  induction m with
  | nil => rfl
  | cons p rest ih =>
    by_cases h : p.1 = k <;> simp [jget_cons, h, ih]

/-- Lookup in the grouping accumulator: the bucket of `k` is the prefix it
already had in `m` extended by the rows of `k`, in file order. -/
theorem jget_foldl_pushRow (rows : List LogRow)
    (m : List (String × List LogRow)) (k : String) :
    jget (rows.foldl pushRow m) k =
      (match jget m k with
       | some l => some (l ++ rows.filter (fun r => r.threadId = k))
       | none =>
         if rows.filter (fun r => r.threadId = k) = [] then none
         else some (rows.filter (fun r => r.threadId = k))) := by
  induction rows generalizing m with
  | nil => cases hm : jget m k <;> simp [hm]
  | cons r rest ih =>
    rw [List.foldl_cons, ih]
    by_cases hk : r.threadId = k
    · subst hk
      have hpr : jget (pushRow m r) r.threadId =
          some ((jget m r.threadId).getD [] ++ [r]) := by
        rw [pushRow, jget_jset_self]
      rw [hpr]
      cases hm : jget m r.threadId <;> simp [List.filter_cons]
    · have hpr : jget (pushRow m r) k = jget m k := by
        rw [pushRow, jget_jset_ne _ _ _ _ hk]
      rw [hpr]
      cases hm : jget m k <;> simp [List.filter_cons, hk]

/-- Lookup in the log grouping: exactly the rows of `k` in file order, or
nothing when there are none. -/
theorem jget_groupByThread (rows : List LogRow) (k : String) :
    jget (groupByThread rows) k =
      (if rows.filter (fun r => r.threadId = k) = [] then none
       else some (rows.filter (fun r => r.threadId = k))) := by
  rw [groupByThread, jget_foldl_pushRow]
  rfl

theorem insertBySeq_append_last (a x : LogRow) (s : List LogRow)
    (h : a.seq ≤ x.seq) :
    insertBySeq a (s ++ [x]) = insertBySeq a s ++ [x] := by
  induction s with
  | nil => simp [insertBySeq, h]
  | cons y ys ih =>
    by_cases hy : a.seq ≤ y.seq
    · simp [insertBySeq, hy]
    · simp [insertBySeq, hy, ih]

/-- A row appended last whose `seq` dominates the rest stays last after the
stable sort by `seq`. -/
theorem sortBySeq_append_last (l : List LogRow) (x : LogRow)
    (h : ∀ y ∈ l, y.seq ≤ x.seq) :
    sortBySeq (l ++ [x]) = sortBySeq l ++ [x] := by
  induction l with
  | nil => rfl
  | cons a l ih =>
    show insertBySeq a (sortBySeq (l ++ [x])) =
      insertBySeq a (sortBySeq l) ++ [x]
    rw [ih (fun y hy => h y (List.mem_cons_of_mem a hy))]
    exact insertBySeq_append_last a x (sortBySeq l)
      (h a (List.mem_cons_self a l))

/-- Membership in the restored set: every index entry whose stored URI
parses contributes one restored thread. -/
theorem restore_mem (parseUri : String → Option String) (d : IndexDoc)
    (rows : List LogRow) (k : String) (e : ThreadEntry) (u : String)
    (he : (k, e) ∈ d.threads) (hu : parseUri e.uri = some u) :
    ({ threadId := k, uri := u, range := e.range,
       isClosed := (match e.state with
                    | ThreadState.closed => true
                    | ThreadState.opened => false),
       contextValue := if (match e.state with
                           | ThreadState.closed => true
                           | ThreadState.opened => false) = true
                       then "locore:resolved" else "locore:unresolved",
       comments := ((jget ((groupByThread rows).map
         (fun p => (p.1, sortBySeq p.2))) k).getD []).map toUIComment } :
      RestoredThread) ∈ restoreExistingThreads parseUri d rows := by
  simp only [restoreExistingThreads]
  refine List.mem_filterMap.mpr ⟨(k, e), he, ?_⟩
  rw [hu]

/-- Restoration of a store whose log is `oldLog` plus a trailing row of
thread `k` with dominating `seq`: the thread restores with its old rows
sorted by `seq` followed by the new row. -/
theorem restore_log_shape (parseUri : String → Option String) (d : IndexDoc)
    (oldLog : List LogRow) (row : LogRow) (k : String) (e : ThreadEntry)
    (u : String) (hk : row.threadId = k)
    (he : jget d.threads k = some e) (hu : parseUri e.uri = some u)
    (hseq : ∀ y ∈ oldLog, y.seq ≤ row.seq) :
    ∃ rt ∈ restoreExistingThreads parseUri d (oldLog ++ [row]),
      rt.threadId = k ∧
      rt.comments = (sortBySeq (oldLog.filter (fun r => r.threadId = k)) ++
        [row]).map toUIComment := by
  have hfil : (oldLog ++ [row]).filter (fun r => r.threadId = k) =
      oldLog.filter (fun r => r.threadId = k) ++ [row] := by
    rw [List.filter_append]
    simp [hk]
  have hgroup : jget (groupByThread (oldLog ++ [row])) k =
      some (oldLog.filter (fun r => r.threadId = k) ++ [row]) := by
    rw [jget_groupByThread, hfil]
    simp
  have hsort : sortBySeq (oldLog.filter (fun r => r.threadId = k) ++ [row]) =
      sortBySeq (oldLog.filter (fun r => r.threadId = k)) ++ [row] :=
    sortBySeq_append_last _ _
      (fun y hy => hseq y (List.mem_of_mem_filter hy))
  refine ⟨_, restore_mem parseUri d (oldLog ++ [row]) k e u
    (jget_eq_some_mem _ _ _ he) hu, rfl, ?_⟩
  rw [jget_map_snd, hgroup]
  simp [hsort]

/-- Restoration of a thread present in the index with no log rows: it comes
back with an empty comment list. -/
theorem restore_no_rows (parseUri : String → Option String) (d : IndexDoc)
    (rows : List LogRow) (k : String) (t : ThreadEntry) (u : String)
    (hmem : (k, t) ∈ d.threads) (hu : parseUri t.uri = some u)
    (hnone : rows.filter (fun r => r.threadId = k) = []) :
    ∃ rt ∈ restoreExistingThreads parseUri d rows,
      rt.threadId = k ∧ rt.comments = [] := by
  have hgroup : jget (groupByThread rows) k = none := by
    rw [jget_groupByThread, hnone]
    simp
  refine ⟨_, restore_mem parseUri d rows k t u hmem hu, rfl, ?_⟩
  dsimp only
  rw [jget_map_snd, hgroup]
  rfl

/-- **C7.** `upsertComment` followed immediately by `restoreAll` on the
resulting store attaches the new comment's body and author to the same
threadId, positioned after every comment previously logged for that thread
(comments are ordered by `seq` ascending); independently, a thread present
in the index with no log rows restores with an empty comment list. -/
theorem upsert_restore_roundtrip (keyFn : String → String → String)
    (root fid cid now author body : String)
    (parseUri : String → Option String) (tmap : List (Nat × String))
    (st : Store) (thread : LiveThread) (res : UpsertResult)
    (e : ThreadEntry) (u : String)
    (hlog : ∀ r ∈ st.log, r.seq ≤ st.index.lastSeq)
    (hcall : upsertReview keyFn root fid cid now author tmap st thread
      body = some res)
    (he : jget res.store.index.threads res.threadId = some e)
    (hu : parseUri e.uri = some u) :
    (∃ rt ∈ restoreExistingThreads parseUri res.store.index res.store.log,
      rt.threadId = res.threadId ∧
      rt.comments =
        (sortBySeq (st.log.filter (fun r => r.threadId = res.threadId)) ++
          [({ threadId := res.threadId, commentId := cid,
              seq := st.index.lastSeq + 1, createdAt := now,
              author := author, body := body } : LogRow)]).map
          toUIComment) ∧
    (∀ (d : IndexDoc) (rows : List LogRow) (k : String) (t : ThreadEntry)
        (u2 : String), (k, t) ∈ d.threads → parseUri t.uri = some u2 →
      rows.filter (fun r => r.threadId = k) = [] →
      ∃ rt ∈ restoreExistingThreads parseUri d rows,
        rt.threadId = k ∧ rt.comments = []) := by
  constructor
  · rcases hr : normId (jsOrStr (jget tmap thread.tid)
        (resolveThreadIdFromIndex keyFn (some root) st.index thread))
      with _ | tid0
    · rw [upsertReview_mint keyFn root fid cid now author body tmap st
        thread hr] at hcall
      cases hcall
      exact restore_log_shape parseUri _ st.log
        { threadId := fid, commentId := cid, seq := st.index.lastSeq + 1,
          createdAt := now, author := author, body := body }
        fid e u rfl he hu
        (fun y hy => Nat.le_succ_of_le (hlog y hy))
    · rcases ht : jget st.index.threads tid0 with _ | t
      · rw [upsertReview_stale keyFn root fid cid now author body tmap st
          thread tid0 hr ht] at hcall
        cases hcall
      · rw [upsertReview_resolved keyFn root fid cid now author body tmap
          st thread tid0 t hr ht] at hcall
        cases hcall
        exact restore_log_shape parseUri _ st.log
          { threadId := tid0, commentId := cid,
            seq := st.index.lastSeq + 1, createdAt := now,
            author := author, body := body }
          tid0 e u rfl he hu
          (fun y hy => Nat.le_succ_of_le (hlog y hy))
  · intro d rows k t u2 hmem hu2 hnone
    exact restore_no_rows parseUri d rows k t u2 hmem hu2 hnone

/-- Witness for C7: upserting the first comment on the empty store and
restoring shows the comment's body and author on the same thread. -/
theorem upsert_restore_roundtrip_witness :
    ∃ rt ∈ restoreExistingThreads (fun s => some s)
        { lastSeq := 1,
          threads :=
            [("tA",
              { threadId := "tA", uri := "file:///ws/fileX",
                range := ⟨⟨0, 0⟩, ⟨0, 5⟩⟩, state := ThreadState.opened,
                createdAt := "T1", updatedAt := "T1", commentCount := 1,
                firstSeq := some 1, lastSeq := some 1 })],
          byUri := [("file:///ws/fileX", ["tA"])] }
        [{ threadId := "tA", commentId := "c1", seq := 1,
           createdAt := "T1", author := "alice", body := "first" }],
      rt.threadId = "tA" ∧
      rt.comments = [{ author := "alice", body := "first",
                       timestamp := "T1" }] :=
  (upsert_restore_roundtrip kf0 "ws" "tA" "c1" "T1" "alice" "first"
    (fun s => some s) [] emptyStore threadA
    { store :=
        { index :=
            { lastSeq := 1,
              threads :=
                [("tA",
                  { threadId := "tA", uri := "file:///ws/fileX",
                    range := ⟨⟨0, 0⟩, ⟨0, 5⟩⟩,
                    state := ThreadState.opened,
                    createdAt := "T1", updatedAt := "T1",
                    commentCount := 1, firstSeq := some 1,
                    lastSeq := some 1 })],
              byUri := [("file:///ws/fileX", ["tA"])] },
          log := [{ threadId := "tA", commentId := "c1", seq := 1,
                    createdAt := "T1", author := "alice",
                    body := "first" }] },
      tmap := [(0, "tA")], threadId := "tA", isNewThread := true }
    { threadId := "tA", uri := "file:///ws/fileX",
      range := ⟨⟨0, 0⟩, ⟨0, 5⟩⟩, state := ThreadState.opened,
      createdAt := "T1", updatedAt := "T1", commentCount := 1,
      firstSeq := some 1, lastSeq := some 1 }
    "file:///ws/fileX"
    (fun r hr => absurd hr (List.not_mem_nil r)) rfl rfl rfl).1

/-- Witness for the amended C2: the invariant after one concrete upsert on
the empty store. -/
theorem seqInv_preserved_witness :
    ∃ res, upsertReview kf0 "ws" "ta" "c1" "T1" "alice" [] emptyStore
        ⟨0, "file:///ws/a", some ⟨⟨0, 0⟩, ⟨0, 1⟩⟩⟩ "one" = some res ∧
      SeqInv res.store.index :=
  ⟨_, rfl, seqInv_preserved.2.1 kf0 "ws" "ta" "c1" "T1" "alice" "one" []
    emptyStore ⟨0, "file:///ws/a", some ⟨⟨0, 0⟩, ⟨0, 1⟩⟩⟩ _
    seqInv_preserved.1 rfl⟩

/-! ## C3 -/

theorem threadsOf_append (off : Nat) (l : List UpsertInput)
    (p : UpsertInput) :
    threadsOf off (l ++ [p]) = threadsOf off l ++
      [(p.freshThreadId, entryOfInput p (off + l.length + 1))] := by
  induction l generalizing off with
  | nil => simp [threadsOf]
  | cons q l ih =>
    show (q.freshThreadId, entryOfInput q (off + 1)) ::
        threadsOf (off + 1) (l ++ [p]) = _
    rw [ih (off + 1)]
    have harith : off + 1 + l.length + 1 = off + (q :: l).length + 1 := by
      simp [List.length_cons]
      omega
    rw [harith]
    rfl

theorem rowsOf_append (author : String) (off : Nat) (l : List UpsertInput)
    (p : UpsertInput) :
    rowsOf author off (l ++ [p]) = rowsOf author off l ++
      [rowOfInput author p (off + l.length + 1)] := by
  induction l generalizing off with
  | nil => simp [rowsOf]
  | cons q l ih =>
    show rowOfInput author q (off + 1) :: rowsOf author (off + 1) (l ++ [p]) = _
    rw [ih (off + 1)]
    have harith : off + 1 + l.length + 1 = off + (q :: l).length + 1 := by
      simp [List.length_cons]
      omega
    rw [harith]
    rfl

theorem rowsOf_map_seq (author : String) (off : Nat) (l : List UpsertInput) :
    (rowsOf author off l).map (fun r => r.seq) =
      List.range' (off + 1) l.length := by
  induction l generalizing off with
  | nil => rfl
  | cons q l ih =>
    show (off + 1) :: (rowsOf author (off + 1) l).map (fun r => r.seq) = _
    rw [ih (off + 1), List.length_cons, List.range'_succ]

theorem rowsOf_length (author : String) (off : Nat) (l : List UpsertInput) :
    (rowsOf author off l).length = l.length := by
  induction l generalizing off with
  | nil => rfl
  | cons q l ih =>
    show (rowsOf author (off + 1) l).length + 1 = _
    rw [ih (off + 1), List.length_cons]

theorem threadsOf_length (off : Nat) (l : List UpsertInput) :
    (threadsOf off l).length = l.length := by
  induction l generalizing off with
  | nil => rfl
  | cons q l ih =>
    show (threadsOf (off + 1) l).length + 1 = _
    rw [ih (off + 1), List.length_cons]

theorem mem_threadsOf (off : Nat) (l : List UpsertInput)
    (pr : String × ThreadEntry) (h : pr ∈ threadsOf off l) :
    ∃ p ∈ l, ∃ s, pr = (p.freshThreadId, entryOfInput p s) := by
  induction l generalizing off with
  | nil => cases h
  | cons q l ih =>
    rcases List.mem_cons.mp h with rfl | h'
    · exact ⟨q, List.mem_cons_self q l, off + 1, rfl⟩
    · rcases ih (off + 1) h' with ⟨p, hp, s, hpr⟩
      exact ⟨p, List.mem_cons_of_mem q hp, s, hpr⟩

theorem jget_threadsOf_some (off : Nat) (l : List UpsertInput) (k : String)
    (t : ThreadEntry) (h : jget (threadsOf off l) k = some t) :
    ∃ p ∈ l, k = p.freshThreadId ∧ ∃ s, t = entryOfInput p s := by
  rcases mem_threadsOf off l (k, t) (jget_eq_some_mem _ _ _ h) with
    ⟨p, hp, s, hpr⟩
  rcases Prod.mk.injEq .. ▸ hpr with ⟨h1, h2⟩
  exact ⟨p, hp, h1, s, h2⟩

theorem mem_idsForUri (l : List UpsertInput) (u id : String)
    (h : id ∈ idsForUri l u) :
    ∃ q ∈ l, q.thread.uri = u ∧ id = q.freshThreadId := by
  rcases List.mem_map.mp h with ⟨q, hq, hid⟩
  rcases List.mem_filter.mp hq with ⟨hql, hqu⟩
  exact ⟨q, hql, by simpa using hqu, hid.symm⟩

theorem idsForUri_append (l : List UpsertInput) (p : UpsertInput)
    (u : String) :
    idsForUri (l ++ [p]) u = idsForUri l u ++
      (if p.thread.uri = u then [p.freshThreadId] else []) := by
  simp only [idsForUri, List.filter_append, List.map_append]
  by_cases h : p.thread.uri = u
  · simp [h]
  · simp [h]

theorem jget_tmapOf_none (l : List UpsertInput) (tid : Nat)
    (h : tid ∉ l.map (fun p => p.thread.tid)) :
    jget (tmapOf l) tid = none := by
  induction l with
  | nil => rfl
  | cons q l ih =>
    have h1 : q.thread.tid ≠ tid := by
      intro he
      exact h (by simp [he])
    have h2 : tid ∉ l.map (fun p => p.thread.tid) := by
      intro he
      exact h (by simp [he])
    show jget ((q.thread.tid, q.freshThreadId) :: tmapOf l) tid = none
    rw [jget_cons, if_neg h1]
    exact ih h2

/-- Pointwise effect of `pushByUri`. -/
theorem jget_pushByUri (byUri : List (String × List String))
    (key tid u : String) :
    jget (pushByUri byUri key tid) u =
      (if u = key then
        some (if tid ∈ (jget byUri key).getD [] then (jget byUri key).getD []
              else (jget byUri key).getD [] ++ [tid])
       else jget byUri u) := by
  have hm1key : jget (if (jget byUri key).isNone then jset byUri key []
      else byUri) key = some ((jget byUri key).getD []) := by
    rcases hb : jget byUri key with _ | l
    · simp [hb, jget_jset_self]
    · simp [hb]
  have hm1u : u ≠ key → jget (if (jget byUri key).isNone then
      jset byUri key [] else byUri) u = jget byUri u := by
    intro hu
    rcases hb : jget byUri key with _ | l
    · simp [hb, jget_jset_ne _ _ _ _ (fun h : key = u => hu h.symm)]
    · simp [hb]
  simp only [pushByUri, hm1key, Option.getD_some]
  by_cases hmem : tid ∈ (jget byUri key).getD []
  · rw [if_pos hmem]
    by_cases hu : u = key
    · subst hu
      rw [hm1key]
      simp [hmem]
    · rw [hm1u hu, if_neg hu]
  · rw [if_neg hmem]
    by_cases hu : u = key
    · subst hu
      rw [jget_jset_self]
      simp [hmem]
    · rw [jget_jset_ne _ _ _ _ (fun h : key = u => hu h.symm), hm1u hu,
        if_neg hu]

/-- One fresh upsert step from a `GoodState`: identity resolution fails (the
pair (location, range) is new), a thread is minted, and the canonical state
shape is maintained. -/
theorem upsert_step_fresh (keyFn : String → String → String)
    (root author : String) (processed : List UpsertInput)
    (inp : UpsertInput) (tmap : List (Nat × String)) (st : Store)
    (hgood : GoodState author processed tmap st)
    (htid : inp.thread.tid ∉ processed.map (fun p => p.thread.tid))
    (hpair : ∀ p ∈ processed, (p.thread.uri, effRange p.thread) ≠
      (inp.thread.uri, effRange inp.thread))
    (hfresh : inp.freshThreadId ∉ processed.map (fun p => p.freshThreadId))
    (hnodupT : (processed.map (fun p => p.freshThreadId)).Nodup)
    (hkey : ∀ q ∈ processed, keyFn inp.thread.uri root ≠ q.thread.uri) :
    ∃ res, upsertReview keyFn root inp.freshThreadId inp.freshCommentId
        inp.nowIso author tmap st inp.thread inp.body = some res ∧
      GoodState author (processed ++ [inp]) res.tmap res.store := by
  obtain ⟨htm, hlast, hthreads, hlog, hby⟩ := hgood
  have hempty : idsForUri processed (keyFn inp.thread.uri root) = [] := by
    have hf : processed.filter
        (fun p => p.thread.uri = keyFn inp.thread.uri root) = [] := by
      rw [List.filter_eq_nil_iff]
      intro q hq
      simpa using (hkey q hq).symm
    simp [idsForUri, hf]
  have hcand : candidateIds keyFn (some root) st.index inp.thread =
      idsForUri processed inp.thread.uri := by
    simp only [candidateIds]
    have hrel : (if keyFn inp.thread.uri root = "" then none
        else jget st.index.byUri (keyFn inp.thread.uri root)) =
        (none : Option (List String)) := by
      by_cases h : keyFn inp.thread.uri root = ""
      · rw [if_pos h]
      · rw [if_neg h, hby, if_pos hempty]
    rw [hrel, hby]
    by_cases h : idsForUri processed inp.thread.uri = []
    · rw [if_pos h, h]
      rfl
    · rw [if_neg h]
      rfl
  have hres : normId (jsOrStr (jget tmap inp.thread.tid)
      (resolveThreadIdFromIndex keyFn (some root) st.index inp.thread)) =
      none := by
    have h1 : jget tmap inp.thread.tid = none := by
      rw [htm]
      exact jget_tmapOf_none processed inp.thread.tid htid
    have h2 : resolveThreadIdFromIndex keyFn (some root) st.index
        inp.thread = none := by
      rw [resolveThreadIdFromIndex, hcand, hthreads]
      apply scanCandidates_eq_none
      intro j hj entry hentry
      rcases mem_idsForUri processed inp.thread.uri j hj with
        ⟨q, hq, hqu, hqid⟩
      rcases jget_threadsOf_some 0 processed j entry hentry with
        ⟨p, hp, hpid, s, hent⟩
      have hpq : p = q :=
        List.inj_on_of_nodup_map hnodupT hp hq (by rw [← hpid, ← hqid])
      subst hpq
      have hne : effRange p.thread ≠ effRange inp.thread := by
        intro he
        exact hpair p hp (by rw [hqu, he])
      rw [hent]
      exact fun he => hne he
    rw [h1, h2]
    rfl
  have hkeysT : ∀ pr ∈ tmapOf processed, pr.1 ≠ inp.thread.tid := by
    intro pr hpr
    rcases List.mem_map.mp hpr with ⟨q, hq, rfl⟩
    dsimp only
    intro he
    exact htid (List.mem_map.mpr ⟨q, hq, he⟩)
  have hkeysE : ∀ pr ∈ threadsOf 0 processed,
      pr.1 ≠ inp.freshThreadId := by
    intro pr hpr
    rcases mem_threadsOf _ _ _ hpr with ⟨p, hp, s, rfl⟩
    dsimp only
    intro he
    exact hfresh (List.mem_map.mpr ⟨p, hp, he⟩)
  have hni : inp.freshThreadId ∉ idsForUri processed inp.thread.uri := by
    intro hmem
    rcases mem_idsForUri _ _ _ hmem with ⟨q, hq, _, hid⟩
    exact hfresh (List.mem_map.mpr ⟨q, hq, hid.symm⟩)
  have hcur : (jget st.index.byUri inp.thread.uri).getD [] =
      idsForUri processed inp.thread.uri := by
    rw [hby]
    by_cases h : idsForUri processed inp.thread.uri = []
    · rw [if_pos h, h]
      rfl
    · rw [if_neg h]
      rfl
  refine ⟨_, upsertReview_mint keyFn root inp.freshThreadId
    inp.freshCommentId inp.nowIso author inp.body tmap st inp.thread hres,
    ?_, ?_, ?_, ?_, ?_⟩
  · dsimp only
    rw [htm, jset_eq_append _ _ _ hkeysT]
    simp [tmapOf]
  · dsimp only
    rw [hlast]
    simp
  · dsimp only
    rw [hthreads, jset_eq_append _ _ _ hkeysE, hlast, threadsOf_append]
    simp [entryOfInput]
  · dsimp only
    rw [hlog, hlast, rowsOf_append]
    simp [rowOfInput]
  · intro u
    dsimp only
    rw [jget_pushByUri, idsForUri_append]
    by_cases hu : u = inp.thread.uri
    · subst hu
      rw [if_pos rfl, if_pos rfl, hcur, if_neg hni]
      have hne2 : idsForUri processed inp.thread.uri ++
          [inp.freshThreadId] ≠ [] := by
        simp
      rw [if_neg hne2]
    · have hinner : (if inp.thread.uri = u then [inp.freshThreadId]
          else []) = [] := if_neg (fun h => hu h.symm)
      rw [if_neg hu, hinner, List.append_nil, hby u]

/-- Folding fresh upserts over a suffix of the input list preserves the
canonical state shape. -/
theorem upsertMany_good (keyFn : String → String → String)
    (root author : String) (full : List UpsertInput)
    (h1 : (full.map (fun p => p.thread.tid)).Nodup)
    (h2 : (full.map (fun p => (p.thread.uri, effRange p.thread))).Nodup)
    (h3 : (full.map (fun p => p.freshThreadId)).Nodup)
    (h4 : ∀ p ∈ full, ∀ q ∈ full, keyFn p.thread.uri root ≠ q.thread.uri) :
    ∀ (rest processed : List UpsertInput) (tmap : List (Nat × String))
      (st : Store), full = processed ++ rest →
      GoodState author processed tmap st →
      ∃ tmap' st', upsertMany keyFn root author rest tmap st =
        some (tmap', st') ∧ GoodState author full tmap' st' := by
  intro rest
  induction rest with
  | nil =>
    intro processed tmap st hfull hgood
    refine ⟨tmap, st, rfl, ?_⟩
    rw [hfull, List.append_nil]
    exact hgood
  | cons inp rest ih =>
    intro processed tmap st hfull hgood
    have hmemInp : inp ∈ full := by
      rw [hfull]
      exact List.mem_append_right _ (List.mem_cons_self _ _)
    have hsubP : ∀ p ∈ processed, p ∈ full := fun p hp => by
      rw [hfull]
      exact List.mem_append_left _ hp
    have key : ∀ {α : Type} (f : UpsertInput → α), (full.map f).Nodup →
        f inp ∉ processed.map f ∧ (processed.map f).Nodup := by
      intro α f hnd
      rw [hfull, List.map_append, List.nodup_append] at hnd
      rcases hnd with ⟨hn1, _, hdisj⟩
      refine ⟨fun hmem => hdisj hmem ?_, hn1⟩
      simp
    have htid' := (key (fun p => p.thread.tid) h1).1
    have hfreshP := (key (fun p => p.freshThreadId) h3).1
    have hnodupTP := (key (fun p => p.freshThreadId) h3).2
    have hpairP : ∀ p ∈ processed, (p.thread.uri, effRange p.thread) ≠
        (inp.thread.uri, effRange inp.thread) := by
      intro p hp he
      exact (key (fun p => (p.thread.uri, effRange p.thread)) h2).1
        (List.mem_map.mpr ⟨p, hp, he⟩)
    have hkeyP : ∀ q ∈ processed, keyFn inp.thread.uri root ≠
        q.thread.uri := fun q hq => h4 inp hmemInp q (hsubP q hq)
    rcases upsert_step_fresh keyFn root author processed inp tmap st hgood
      htid' hpairP hfreshP hnodupTP hkeyP with ⟨res, hcall, hgood'⟩
    have hfull' : full = (processed ++ [inp]) ++ rest := by
      rw [hfull]
      simp
    rcases ih (processed ++ [inp]) res.tmap res.store hfull' hgood' with
      ⟨tmap', st', hrun, hgoodF⟩
    refine ⟨tmap', st', ?_, hgoodF⟩
    show upsertMany keyFn root author (inp :: rest) tmap st =
      some (tmap', st')
    simp only [upsertMany]
    rw [hcall]
    exact hrun

/-- **C3.** A run of `upsertComment` calls on live threads with pairwise
distinct (location, effective range) pairs, distinct runtime identities and
distinct minted ids, starting from the empty store, yields exactly one
`ThreadEntry` per call, each with `commentCount = 1`, and a log of exactly
N rows whose `seq` values are exactly `1..N` (in particular a permutation
of `1..N` with no repeats).  The `keyFromThread` hypothesis says relative
keys never collide with the absolute URI keys the upsert path stores. -/
theorem distinct_upserts_unit_counts (keyFn : String → String → String)
    (root author : String) (inputs : List UpsertInput)
    (h1 : (inputs.map (fun p => p.thread.tid)).Nodup)
    (h2 : (inputs.map (fun p => (p.thread.uri, effRange p.thread))).Nodup)
    (h3 : (inputs.map (fun p => p.freshThreadId)).Nodup)
    (h4 : ∀ p ∈ inputs, ∀ q ∈ inputs,
      keyFn p.thread.uri root ≠ q.thread.uri) :
    ∃ tmap' st', upsertMany keyFn root author inputs [] emptyStore =
        some (tmap', st') ∧
      st'.index.threads.length = inputs.length ∧
      (∀ pr ∈ st'.index.threads, pr.2.commentCount = 1) ∧
      st'.log.length = inputs.length ∧
      st'.log.map (fun r => r.seq) = List.range' 1 inputs.length ∧
      (st'.log.map (fun r => r.seq)).Nodup := by
  have hgood0 : GoodState author [] [] emptyStore := by
    refine ⟨rfl, rfl, rfl, rfl, ?_⟩
    intro u
    simp [emptyStore, emptyIndex, idsForUri, jget_nil]
  rcases upsertMany_good keyFn root author inputs h1 h2 h3 h4 inputs [] []
    emptyStore rfl hgood0 with ⟨tmap', st', hrun, hgood⟩
  obtain ⟨htm, hlast, hthreads, hlog, hby⟩ := hgood
  have hseq : st'.log.map (fun r => r.seq) =
      List.range' 1 inputs.length := by
    rw [hlog, rowsOf_map_seq]
  refine ⟨tmap', st', hrun, ?_, ?_, ?_, hseq, ?_⟩
  · rw [hthreads, threadsOf_length]
  · intro pr hpr
    rw [hthreads] at hpr
    rcases mem_threadsOf _ _ _ hpr with ⟨p, hp, s, rfl⟩
    rfl
  · rw [hlog, rowsOf_length]
  · rw [hseq]
    exact List.nodup_range' 1 inputs.length

/-- Witness for C3: two upserts at distinct anchors yield two unit-count
entries and the log `seq` values `[1, 2]`. -/
theorem distinct_upserts_unit_counts_witness :
    ∃ tmap' st', upsertMany kf0 "ws" "alice"
        [⟨⟨0, "file:///ws/a", some ⟨⟨0, 0⟩, ⟨0, 1⟩⟩⟩, "ta", "c1", "T1",
          "one"⟩,
         ⟨⟨1, "file:///ws/b", some ⟨⟨2, 0⟩, ⟨2, 1⟩⟩⟩, "tb", "c2", "T2",
          "two"⟩] [] emptyStore = some (tmap', st') ∧
      st'.index.threads.length = 2 ∧
      (∀ pr ∈ st'.index.threads, pr.2.commentCount = 1) ∧
      st'.log.length = 2 ∧
      st'.log.map (fun r => r.seq) = List.range' 1 2 ∧
      (st'.log.map (fun r => r.seq)).Nodup :=
  distinct_upserts_unit_counts kf0 "ws" "alice"
    [⟨⟨0, "file:///ws/a", some ⟨⟨0, 0⟩, ⟨0, 1⟩⟩⟩, "ta", "c1", "T1", "one"⟩,
     ⟨⟨1, "file:///ws/b", some ⟨⟨2, 0⟩, ⟨2, 1⟩⟩⟩, "tb", "c2", "T2", "two"⟩]
    (by decide) (by decide) (by decide) (by decide)

end LoCoRe
